import Mathlib

/-!
Shallow embedding of `src/document.ts` (the `PrettyDocumentController` of
vsc-prettify-symbols-mode) together with the collaborator interfaces it uses.

Conventions of the embedding:
* lines are `List Char`; columns count code units of a line (`List.length`);
* the host regex engine is an abstract capability (`Regex`): a pure
  `exec : line → lastIndex → Option MatchData` function, matching the
  "regex engine as an external capability" note of the design spec;
* `DisjointRangeSet` and the edit-delta helpers live in
  `disjointrangeset.ts` / `position.ts`, which are not part of the source
  tree given to us; they are modelled from the spec (each such definition
  carries a doc comment saying so);
* the vscode objects (`Position`, `Range`, `TextDocument.validateRange`,
  the buffer mutation itself) are external collaborators and are modelled
  from their documented behaviour.
-/

/-- vscode `Position`: a (line, character) pair, lines 0-indexed, characters
are code-unit offsets within the line. -/
structure Pos where
  line : Nat
  character : Nat
deriving DecidableEq, Repr

/-- Total order on positions: compare line, then character (vscode
`Position.isBefore`). -/
def Pos.Before (a b : Pos) : Prop :=
  a.line < b.line ∨ (a.line = b.line ∧ a.character < b.character)

/-- vscode `Position.isBeforeOrEqual`. -/
def Pos.BeforeOrEqual (a b : Pos) : Prop :=
  a.line < b.line ∨ (a.line = b.line ∧ a.character ≤ b.character)

instance (a b : Pos) : Decidable (Pos.Before a b) := by
  unfold Pos.Before; infer_instance

instance (a b : Pos) : Decidable (Pos.BeforeOrEqual a b) := by
  unfold Pos.BeforeOrEqual; infer_instance

/-- Boolean form used by the embedded code (vscode `isBefore`). -/
def Pos.isBefore (a b : Pos) : Bool := decide (Pos.Before a b)

/-- Boolean form used by the embedded code (vscode `isBeforeOrEqual`). -/
def Pos.isBeforeOrEqual (a b : Pos) : Bool := decide (Pos.BeforeOrEqual a b)

/-- vscode `Range`: half-open span `[start, stop)` of positions. -/
structure Range where
  start : Pos
  stop : Pos
deriving DecidableEq, Repr

/-- vscode `Range.isEqual`. -/
def Range.isEqual (a b : Range) : Bool := decide (a = b)

/-- Two half-open ranges overlap when their interiors intersect. -/
def Range.Overlaps (a b : Range) : Prop :=
  Pos.Before a.start b.stop ∧ Pos.Before b.start a.stop

instance (a b : Range) : Decidable (Range.Overlaps a b) := by
  unfold Range.Overlaps; infer_instance

/-! ## Disjoint range set (modelled from the spec)

`disjointrangeset.ts` is not in the source tree; only `document.ts` (its
caller) is.  The operations below are modelled from spec §4.1: an ordered
sequence of ranges, sorted by start position and pairwise non-overlapping;
all operations are scans of that sorted sequence. -/

/-- Modelled from the spec: the Disjoint Range Set is "an ordered sequence of
Ranges ... sorted by start position and pairwise non-overlapping"; we represent
it as a plain list of ranges, sortedness/disjointness is an invariant proved,
not assumed. -/
abbrev DisjointRangeSet := List Range

namespace DisjointRangeSet

/-- Modelled from the spec: `insert(range)` adds a range, keeping the
sequence ordered by start position (overlap with existing members is a
caller-side precondition, spec §4.1). -/
def insert (l : DisjointRangeSet) (r : Range) : DisjointRangeSet :=
  match l with
  | [] => [r]
  | x :: xs => if Pos.isBefore r.start x.start then r :: x :: xs else x :: insert xs r

/-- Modelled from the spec: `insertRanges(otherSet)` bulk-inserts every range
of the other set. -/
def insertRanges (l : DisjointRangeSet) (other : List Range) : DisjointRangeSet :=
  other.foldl insert l

/-- Option flags of `removeOverlapping` (spec §4.1). -/
structure TouchOptions where
  includeTouchingStart : Bool := false
  includeTouchingEnd : Bool := false
deriving DecidableEq, Repr

/-- A stored range `r` is removed by `removeOverlapping(q, opts)` when it
overlaps `q`, or touches the start (resp. end) of `q` when the corresponding
flag is set.  Modelled from the spec. -/
def removedBy (q : Range) (opts : TouchOptions) (r : Range) : Bool :=
  decide (Range.Overlaps r q) ||
  (opts.includeTouchingStart && decide (r.stop = q.start)) ||
  (opts.includeTouchingEnd && decide (r.start = q.stop))

/-- Modelled from the spec: `removeOverlapping(range, opts)` removes and
returns every stored range overlapping (optionally touching) the query range.
Returns `(removed, kept)`; the TypeScript version mutates the set to `kept`
and returns `removed`. -/
def removeOverlapping (l : DisjointRangeSet) (q : Range) (opts : TouchOptions) :
    List Range × DisjointRangeSet :=
  (l.filter (removedBy q opts), l.filter (fun r => ! removedBy q opts r))

/-- Modelled from the spec: `findPreceding(position)` returns the closest
range whose end is at or before the position, or none. -/
def findPreceding (l : DisjointRangeSet) (p : Pos) : Option Range :=
  (l.filter (fun r => Pos.isBeforeOrEqual r.stop p)).getLast?

/-- Modelled from the spec: `getRangesStartingAt(position)` is the ascending
sequence of stored ranges whose start is at or after the position (the lazy
iterator is modelled as the whole list, consumed head-first). -/
def getRangesStartingAt (l : DisjointRangeSet) (p : Pos) : List Range :=
  l.filter (fun r => Pos.isBeforeOrEqual p r.start)

/-- Modelled from the spec: `getEnd()` — the end of the last stored range
(origin when the set is empty). -/
def getEnd (l : DisjointRangeSet) : Pos :=
  match l.getLast? with
  | some r => r.stop
  | none => ⟨0, 0⟩

/-- Modelled from the spec: `isEmpty()`. -/
def isEmpty (l : DisjointRangeSet) : Bool := List.isEmpty l

/-- Modelled from the spec: `getRanges()`. -/
def getRanges (l : DisjointRangeSet) : List Range := l

end DisjointRangeSet

/-! ## Edit deltas (modelled from the spec §3 "Edit Delta") -/

/-- Modelled from the spec: an Edit Delta describes one edit (old range
replaced by new text); it carries the old range's endpoints and the
line-count / trailing-column deltas of the replacement. -/
structure RangeDelta where
  start : Pos
  oldEnd : Pos
  linesDelta : Int
  endCharactersDelta : Int
deriving DecidableEq, Repr

/-- Split a text into its lines at newline characters (always non-empty). -/
def splitLines (t : List Char) : List (List Char) :=
  match t with
  | [] => [[]]
  | c :: cs =>
    match splitLines cs with
    | [] => [[c]]
    | l :: ls => if c = '\n' then [] :: l :: ls else (c :: l) :: ls

/-- Modelled from the spec: `toRangeDelta(oldRange, text)` derives the
line-count delta and the trailing-column delta of the edit. -/
def toRangeDelta (oldRange : Range) (text : List Char) : RangeDelta :=
  let tl := splitLines text
  let tLines : Nat := tl.length - 1
  let newEndChar : Nat :=
    if tLines = 0 then oldRange.start.character + text.length
    else ((tl.getLast?).getD []).length
  { start := oldRange.start
    oldEnd := oldRange.stop
    linesDelta := (tLines : Int) - ((oldRange.stop.line : Int) - (oldRange.start.line : Int))
    endCharactersDelta := (newEndChar : Int) - (oldRange.stop.character : Int) }

/-- Modelled from the spec: the "new range" of a delta — the span the inserted
text now occupies. -/
def rangeDeltaNewRange (d : RangeDelta) : Range :=
  { start := d.start
    stop := ⟨((d.oldEnd.line : Int) + d.linesDelta).toNat,
             ((d.oldEnd.character : Int) + d.endCharactersDelta).toNat⟩ }

/-- Modelled from the spec: the position-shift function of an Edit Delta.
Positions strictly after the old range's end are translated by the line-count
delta, and additionally by the trailing-column delta when they lie on the old
end's line; positions at or before the old end are untouched. -/
def shiftPos (d : RangeDelta) (p : Pos) : Pos :=
  if Pos.isBefore d.oldEnd p then
    if p.line = d.oldEnd.line then
      ⟨((p.line : Int) + d.linesDelta).toNat, ((p.character : Int) + d.endCharactersDelta).toNat⟩
    else
      ⟨((p.line : Int) + d.linesDelta).toNat, p.character⟩
  else p

/-- Modelled from the spec: shift one stored range by the delta. -/
def shiftRange (d : RangeDelta) (r : Range) : Range :=
  ⟨shiftPos d r.start, shiftPos d r.stop⟩

namespace DisjointRangeSet

/-- Modelled from the spec: `shiftRangeDelta(delta)` translates every stored
range by the delta's shift function (ranges inside the replaced span must
have been removed beforehand). -/
def shiftRangeDelta (l : DisjointRangeSet) (d : RangeDelta) : DisjointRangeSet :=
  l.map (shiftRange d)

end DisjointRangeSet

/-- Modelled from the spec (`drangeset.maxPosition`): the later of two
positions. -/
def maxPosition (a b : Pos) : Pos := if Pos.isBefore a b then b else a

/-! ## Text document (external collaborator, modelled from its interface) -/

/-- A text buffer: the list of its lines (no line contains a newline). -/
abbrev Doc := List (List Char)

/-- vscode `TextDocument.lineAt(i).text`. -/
def lineAt (d : Doc) (i : Nat) : List Char := d.getD i []

/-- vscode `TextDocument.lineCount`. -/
def lineCount (d : Doc) : Nat := d.length

/-- Modelled from the vscode API ("clamp a position to document bounds",
spec §6): a position on a line beyond the last is clamped to the end of the
last line; a character beyond the line length is clamped to the line length. -/
def validatePosition (d : Doc) (p : Pos) : Pos :=
  if p.line < d.length then ⟨p.line, min p.character (lineAt d p.line).length⟩
  else ⟨d.length - 1, (lineAt d (d.length - 1)).length⟩

/-- Modelled from the vscode API: `TextDocument.validateRange`. -/
def validateRange (d : Doc) (r : Range) : Range :=
  ⟨validatePosition d r.start, validatePosition d r.stop⟩

/-- Merge the kept head of the start line and the kept tail of the end line
with the inserted text's lines: the first inserted line extends `pre`, the
last extends into `post`, and a single inserted line joins both. -/
def mergeLines (pre : List Char) (tls : List (List Char)) (post : List Char) :
    List (List Char) :=
  match tls with
  | [] => [pre ++ post]
  | [t] => [pre ++ t ++ post]
  | t :: ts => (pre ++ t) :: ts.dropLast ++ [(ts.getLast?).getD [] ++ post]

/-- Modelled from the spec (§3, §6): the host editor's buffer mutation —
replace the text of `r` by `text`.  Lines before the edit and after it are
preserved; the replaced span is substituted by the inserted text's lines,
merged with the kept head of the start line and tail of the end line. -/
def applyEdit (d : Doc) (r : Range) (text : List Char) : Doc :=
  d.take r.start.line
    ++ mergeLines ((lineAt d r.start.line).take r.start.character) (splitLines text)
        ((lineAt d r.stop.line).drop r.stop.character)
    ++ d.drop (r.stop.line + 1)

/-! ## Regex engine (external capability, spec §9)

The spec treats "compile pattern, exec advancing from an index, report
capture groups" as an abstract capability.  `MatchData` mirrors a JavaScript
`RegExpExecArray`: the array of the full match and the capture-group strings
(`none` = group did not participate), plus the match index. -/

/-- A regex match result, mirroring `RegExpExecArray`: entry 0 is the whole
match, entries 1.. are capture groups (`none` when the group did not
participate), `index` is where the whole match starts. -/
structure MatchData where
  index : Nat
  arr : List (Option (List Char))
deriving DecidableEq, Repr

/-- The whole matched text (`match[0]`). -/
def MatchData.full (m : MatchData) : List Char := (m.arr.getD 0 none).getD []

/-- An abstract compiled regex with the `g` flag: a pure `exec` from a given
`lastIndex`.  JS `exec` statefully advances `lastIndex`; the embedded scan
loops thread that index explicitly. -/
structure Regex where
  exec : List Char → Nat → Option MatchData

/-- A regex that never matches (used where JS would have thrown on an
invalid combined pattern; never reached for well-formed rule sets). -/
def neverMatch : Regex := ⟨fun _ _ => none⟩

/-- An abstract regex compiler: `new RegExp(pattern, "g")`, `none` models the
`SyntaxError` thrown on an invalid pattern. -/
structure RegexProvider where
  compile : String → Option Regex

/-- JS `String.prototype.indexOf` for the found case: the first index at
which `needle` occurs in `hay`.  JS returns `-1` when absent; a capture
group's text always occurs inside the full match, so the absent case is
unreachable in context and defaults to `0` here. -/
def indexOfSub (hay needle : List Char) : Nat :=
  (((List.range (hay.length + 1)).filter
      (fun i => needle.isPrefixOf (hay.drop i))).head?).getD 0

/-- Properties of a compiled combined regex that any real engine provides for
the combined pattern of `n` rules: matches start at or after `lastIndex`;
there is one capture group per rule (so at most `n + 1` array entries); and
the capture groups never match the empty string (rule patterns with
empty-matching ugly patterns are outside this model — the source would
loop forever on them). -/
def GoodEngine (re : Regex) (n : Nat) : Prop :=
  (∀ t i m, re.exec t i = some m → i ≤ m.index) ∧
  (∀ t i m, re.exec t i = some m → m.arr.length ≤ n + 1) ∧
  (∀ t i m, re.exec t i = some m → ∀ j s, 1 ≤ j → m.arr.getD j none = some s → s ≠ [])

/-! ## Configuration (modelled from the spec) -/

/-- Modelled from the spec: a Pattern Rule — "an ugly-pattern regular
expression plus optional pre/post context patterns, paired with a replacement
display form" (`Substitution` of `configuration.ts`, which is not in the
source tree).  The source tests `pre`/`post` for JS truthiness, so the empty
string doubles as "absent". -/
structure Substitution where
  ugly : String
  pretty : String
  pre : String := ""
  post : String := ""
deriving DecidableEq, Repr

/-- `PrettySubstitution` of `document.ts` (line 11): compiled rule regex, the
display form, and the per-rule disjoint range index.  The
`vscode.TextEditorDecorationType` field is pure rendering and is dropped. -/
structure PrettySubstitution where
  ugly : Regex
  pretty : String
  ranges : DisjointRangeSet

/-- The mutable state of a `PrettyDocumentController` that the core algorithm
reads and writes: the document, the per-rule indices (`prettyDecorations`),
the combined regex (`uglyAll`), the aggregate index (`uglyDecorationRanges`)
and the `changedUglies` flag.  Rendering-only fields are dropped. -/
structure DocState where
  document : Doc
  prettyDecorations : List PrettySubstitution
  uglyAll : Regex
  uglyDecorationRanges : DisjointRangeSet
  changedUglies : Bool

/-- `regexpOptionalGroup` (document.ts line 111): wrap a non-empty context
pattern in a non-capturing group, else the empty pattern. -/
def regexpOptionalGroup (re : String) : String :=
  if re = "" then "" else "(?:" ++ re ++ ")"

/-- The assembled per-rule pattern string of `loadDecorations` (line 123):
optional pre context, parenthesised ugly pattern, optional post context. -/
def uglyPatternString (s : Substitution) : String :=
  regexpOptionalGroup s.pre ++ "(" ++ s.ugly ++ ")" ++ regexpOptionalGroup s.post

/-- `loadDecorations` (document.ts lines 118-142): compile each substitution;
on success push a `PrettySubstitution` with an empty index and add the
pattern to the combined alternation, on failure record a warning and drop the
rule.  Returns (prettyDecorations, uglyAll, warnings); the console warnings
are modelled as a returned list.

This is the per-rule loop (document.ts lines 122-140), accumulating
(prettyDecorations, uglyAllStrings, warnings); `loadDecorations` below
finishes by compiling the combined alternation (line 141). -/
def loadDecorationsAux (P : RegexProvider) :
    List Substitution → List PrettySubstitution × List String × List String
  | [] => ([], [], [])
  | s :: rest =>
    let (decs, alls, warns) := loadDecorationsAux P rest
    let uglyStr := uglyPatternString s
    match P.compile uglyStr with
    | some re =>
      ({ ugly := re, pretty := s.pretty, ranges := [] } :: decs,
       ("(?:" ++ uglyStr ++ ")") :: alls, warns)
    | none =>
      (decs, alls,
       ("Could not add rule \"" ++ uglyStr ++ "\" --> \"" ++ s.pretty ++
        "\"; invalid regular expression") :: warns)

def loadDecorations (P : RegexProvider) (substs : List Substitution) :
    List PrettySubstitution × Regex × List String :=
  let (decs, alls, warns) := loadDecorationsAux P substs
  (decs, (P.compile (String.intercalate "|" alls)).getD neverMatch, warns)

/-! ## Match attribution (`getUglyFromMatch`, document.ts lines 180-197) -/

/-- The result of `getUglyFromMatch`: the ugly range, the owning rule's index,
and the `lastIndex` the function stores back into the combined regex (the end
of the ugly capture, document.ts line 194). -/
structure UglyMatch where
  range : Range
  prettyIndex : Nat
  lastIndex : Nat
deriving DecidableEq, Repr

/-- `getUglyFromMatch` (document.ts lines 181-197): keep the defined entries
of the exec array; if only the whole match is defined there is no capture to
attribute and the match is skipped; otherwise the last defined entry is the
fired capture group, the recorded span starts at `match.index` plus the first
occurrence of that group's text inside the whole match, and the regex's
`lastIndex` is moved to the end of the ugly capture (not of the whole
match). -/
def getUglyFromMatch (m : MatchData) (line : Nat) : Option UglyMatch :=
  let ms := (m.arr.enum).filter (fun v => v.2.isSome)
  if ms.length ≤ 1 then none
  else
    match ms.getLast? with
    | none => none
    | some lastm =>
      let matchIdx := lastm.1
      let matchStr := (m.arr.getD matchIdx none).getD []
      let start := m.index + indexOfSub m.full matchStr
      let stop := start + matchStr.length
      some { range := ⟨⟨line, start⟩, ⟨line, stop⟩⟩
             prettyIndex := matchIdx - 1
             lastIndex := stop }

/-! ## Scan loops of `parsePretty` (document.ts lines 222-258)

JS `exec` with the `g` flag statefully advances `lastIndex`; after a match is
attributed, `getUglyFromMatch` resets it to the end of the ugly capture.  The
loops below thread that index explicitly.  The `fuel` argument bounds the
number of iterations — a real `while (match = re.exec(...))` loop can diverge
when the pattern matches the empty string and never advances; the callers
pass `text.length + 1`, which is exhausted only in that divergent case. -/

/-- The candidate stream of one line: the matches the
`while (match = this.uglyAll.exec(line.text))` loop of document.ts
lines 226-232 produces and inserts, starting the search at index `i`. -/
def scanLineFrom (re : Regex) (text : List Char) (lineNo : Nat) (i : Nat) :
    Nat → List UglyMatch
  | 0 => []
  | fuel + 1 =>
    match re.exec text i with
    | none => []
    | some m =>
      match getUglyFromMatch m lineNo with
      | none => scanLineFrom re text lineNo (m.index + m.full.length) fuel
      | some u => u :: scanLineFrom re text lineNo u.lastIndex fuel

/-- The last-line loop of `parsePretty` (document.ts lines 244-258): scan
from index `i`, reconciling each candidate against the ascending pre-existing
matches `ps` (the `getRangesStartingAt(range.end)` iterator): stop the whole
scan when a candidate equals the current pre-existing match; advance the
iterator when the current pre-existing match starts before the candidate's
end; in every non-stop case the candidate is kept (inserted into the fresh
sets). -/
def lastLineScan (re : Regex) (text : List Char) (lineNo : Nat) :
    Nat → Nat → List Range → List UglyMatch
  | 0, _, _ => []
  | fuel + 1, i, ps =>
    match re.exec text i with
    | none => []
    | some m =>
      match getUglyFromMatch m lineNo with
      | none => lastLineScan re text lineNo fuel (m.index + m.full.length) ps
      | some u =>
        match ps with
        | [] => u :: lastLineScan re text lineNo fuel u.lastIndex []
        | p :: ps' =>
          if u.range.isEqual p then []
          else if p.start.isBefore u.range.stop then
            u :: lastLineScan re text lineNo fuel u.lastIndex ps'
          else
            u :: lastLineScan re text lineNo fuel u.lastIndex (p :: ps')

/-- Spec-side description of the last-line reconciliation (spec §4.2 step 3),
phrased on the already-extracted candidate stream: walk the candidates
against the ordered pre-existing matches; stop at the first candidate equal
to the current pre-existing match; otherwise keep the candidate, advancing
past the current pre-existing match whenever its start is before the
candidate's end. -/
def reconcile : List UglyMatch → List Range → List UglyMatch
  | [], _ => []
  | c :: cs, [] => c :: reconcile cs []
  | c :: cs, p :: ps =>
    if c.range = p then []
    else if Pos.Before p.start c.range.stop then c :: reconcile cs ps
    else c :: reconcile cs (p :: ps)

/-! ## `parsePretty` (document.ts lines 200-277) -/

/-- The resumed scan-start column of `parsePretty` (document.ts lines
215-220): the end of the pre-existing match found by `findPreceding` when it
ends on the range's start line, else column 0. -/
def resumeColumn (agg : DisjointRangeSet) (start : Pos) : Nat :=
  match DisjointRangeSet.findPreceding agg start with
  | some pr => if pr.stop.line = start.line then pr.stop.character else 0
  | none => 0

/-- All fresh matches one `parsePretty` call discovers on an
already-validated range: the full middle lines (document.ts lines 223-235,
the first from the resumed column, subsequent ones from column 0) followed by
the reconciled matches of the line containing `range.stop` (lines 239-258).
-/
def freshMatches (s : DocState) (range : Range) : List UglyMatch :=
  let startCharacter := resumeColumn s.uglyDecorationRanges range.start
  let mid := (List.range' range.start.line (range.stop.line - range.start.line)).map
    (fun idx =>
      let t := lineAt s.document idx
      scanLineFrom s.uglyAll t idx (if idx = range.start.line then startCharacter else 0)
        (t.length + 1))
  let lastText := lineAt s.document range.stop.line
  let lastStart := if range.stop.line = range.start.line then startCharacter else 0
  let preexisting := DisjointRangeSet.getRangesStartingAt s.uglyDecorationRanges range.stop
  mid.flatten ++ lastLineScan s.uglyAll lastText range.stop.line (lastText.length + 1)
    lastStart preexisting

/-- The fresh per-rule sets `newPrettyRanges` (document.ts lines 212-213,
230-231, 255-256): the `i`-th set collects, in discovery order, the ranges of
the fresh matches attributed to rule `i` (the source inserts each match into
`newPrettyRanges[ugly.prettyIndex]` as it is found). -/
def prettyFreshSets (n : Nat) (fresh : List UglyMatch) : List DisjointRangeSet :=
  (List.range n).map (fun i =>
    DisjointRangeSet.insertRanges []
      ((fresh.filter (fun u => u.prettyIndex = i)).map (fun u => u.range)))

/-- The merge of the fresh per-rule sets into the per-rule indices
(document.ts line 270: `prettyDecorations.forEach((pretty,idx) =>
pretty.ranges.insertRanges(newPrettyRanges[idx]))`). -/
def mergeFresh : List PrettySubstitution → List DisjointRangeSet → List PrettySubstitution
  | [], _ => []
  | d :: ds, [] => d :: ds
  | d :: ds, nr :: nrs =>
    { d with ranges := DisjointRangeSet.insertRanges d.ranges nr } :: mergeFresh ds nrs

/-- `parsePretty` (document.ts lines 206-277).  With no compiled rules it
returns its argument unchanged (line 207-208); otherwise the range is
validated, the widened region is scanned (`freshMatches`), pre-existing
matches overlapping the span from `range.end` to the furthest fresh end are
removed from the aggregate and every per-rule index (lines 260-266), the
fresh sets are merged in (lines 269-270), and the actually reparsed range is
returned (lines 272-276).  Returns (new state, reparsed range). -/
def parsePretty (s : DocState) (range0 : Range) : DocState × Range :=
  if s.prettyDecorations.length = 0 then (s, range0)
  else
    let range := validateRange s.document range0
    let startCharacter := resumeColumn s.uglyDecorationRanges range.start
    let fresh := freshMatches s range
    let newUglyRanges := DisjointRangeSet.insertRanges [] (fresh.map (fun u => u.range))
    let newPrettyRanges := prettyFreshSets s.prettyDecorations.length fresh
    let (agg1, decs1) :=
      if Pos.isBefore range.stop (DisjointRangeSet.getEnd newUglyRanges) then
        let extraOverlap : Range := ⟨range.stop, DisjointRangeSet.getEnd newUglyRanges⟩
        ((DisjointRangeSet.removeOverlapping s.uglyDecorationRanges extraOverlap {}).2,
         s.prettyDecorations.map (fun d =>
           { d with ranges := (DisjointRangeSet.removeOverlapping d.ranges extraOverlap {}).2 }))
      else (s.uglyDecorationRanges, s.prettyDecorations)
    let agg2 := DisjointRangeSet.insertRanges agg1 newUglyRanges
    let decs2 := mergeFresh decs1 newPrettyRanges
    let changed := s.changedUglies || !(DisjointRangeSet.isEmpty newUglyRanges)
    let ret :=
      if !(DisjointRangeSet.isEmpty newUglyRanges) then
        Range.mk ⟨range.start.line, startCharacter⟩
          (maxPosition range.stop (DisjointRangeSet.getEnd newUglyRanges))
      else Range.mk ⟨range.start.line, startCharacter⟩ range.stop
    ({ s with uglyDecorationRanges := agg2, prettyDecorations := decs2,
              changedUglies := changed }, ret)

/-! ## Document change handling (document.ts lines 285-326) -/

/-- One constituent edit of a change event: `(range, text)` of a
`TextDocumentContentChangeEvent`. -/
structure Change where
  range : Range
  text : List Char
deriving DecidableEq, Repr

/-- The body of the `for (const change of event.contentChanges)` loop of
`onChangeDocument` (document.ts lines 291-316) for a single change: the host
has already applied the edit to the buffer; the handler computes the delta
and the new range, drops from the aggregate index everything overlapping or
touching the replaced range, shifts the survivors, sets `changedUglies` when
anything was dropped, repeats removal and shifting on each per-rule index,
and finally reparses the new range. -/
def processChange (s : DocState) (c : Change) : DocState :=
  let doc' := applyEdit s.document c.range c.text
  let delta := toRangeDelta c.range c.text
  let editRange := rangeDeltaNewRange delta
  let (removed, kept) := DisjointRangeSet.removeOverlapping s.uglyDecorationRanges c.range
      ⟨true, true⟩
  let agg := DisjointRangeSet.shiftRangeDelta kept delta
  let changed := s.changedUglies || decide (removed.length > 0)
  let decs := s.prettyDecorations.map (fun d =>
    let k := (DisjointRangeSet.removeOverlapping d.ranges c.range ⟨true, true⟩).2
    { d with ranges := DisjointRangeSet.shiftRangeDelta k delta })
  (parsePretty { document := doc', prettyDecorations := decs, uglyAll := s.uglyAll,
                 uglyDecorationRanges := agg, changedUglies := changed } editRange).1

/-- `onChangeDocument` (document.ts lines 285-326): reset `changedUglies`,
process each constituent change in order, then redraw when
`this.changedUglies || true` — the returned flag records whether
`applyDecorations` was invoked. -/
def onChangeDocument (s : DocState) (changes : List Change) : DocState × Bool :=
  let s1 := changes.foldl processChange { s with changedUglies := false }
  (s1, s1.changedUglies || true)

/-- The document-range used by the constructor and `refresh`
(document.ts lines 70, 337): `new vscode.Range(0,0,lineCount,0)`. -/
def docRange (d : Doc) : Range := ⟨⟨0, 0⟩, ⟨lineCount d, 0⟩⟩

/-- The index-relevant part of the constructor (document.ts lines 61-72):
load the decorations, then parse the whole document starting from empty
indices. -/
def initState (P : RegexProvider) (substs : List Substitution) (doc : Doc) : DocState :=
  let (decs, all, _warns) := loadDecorations P substs
  (parsePretty { document := doc, prettyDecorations := decs, uglyAll := all,
                 uglyDecorationRanges := [], changedUglies := false } (docRange doc)).1

/-- `refresh` (document.ts lines 329-341): discard the aggregate and per-rule
indices and re-parse the whole document. -/
def refreshState (s : DocState) : DocState :=
  let cleared := s.prettyDecorations.map (fun d => { d with ranges := ([] : DisjointRangeSet) })
  (parsePretty { s with uglyDecorationRanges := [], prettyDecorations := cleared }
     (docRange s.document)).1

/-- A change event the host can deliver: the replaced range lies within the
current document and is properly ordered (spec §5/§6: edit events are fully
materialized and delivered in apply order). -/
def ValidChange (d : Doc) (c : Change) : Prop :=
  Pos.BeforeOrEqual c.range.start c.range.stop ∧
  c.range.stop.line < d.length ∧
  c.range.start.character ≤ (lineAt d c.range.start.line).length ∧
  c.range.stop.character ≤ (lineAt d c.range.stop.line).length

/-- The states a `PrettyDocumentController` for initial document `doc₀` and
configuration `substs` can be in: right after the constructor's initial scan,
after processing any number of valid edits, and after any `refresh`. -/
inductive Reachable (P : RegexProvider) (substs : List Substitution) (doc₀ : Doc) :
    DocState → Prop
  | init : Reachable P substs doc₀ (initState P substs doc₀)
  | step (s : DocState) (c : Change) : Reachable P substs doc₀ s →
      ValidChange s.document c → Reachable P substs doc₀ (processChange s c)
  | refresh (s : DocState) : Reachable P substs doc₀ s →
      Reachable P substs doc₀ (refreshState s)

/-! ## Ground-truth matches (for relating `RegExpExecArray` to actual group
positions)

A JS `RegExpExecArray` reports only the *text* of each capture group, not its
position; `getUglyFromMatch` reconstructs a position with `indexOf`.  To state
what the correct position would be, a ground-truth match records, for each
participating group, its absolute start offset in the line as well. -/

/-- A match as the engine actually produced it: entry 0 is the whole match,
entries 1.. the capture groups, each participating entry carrying its
absolute start offset in the line and its text. -/
structure GroundMatch where
  index : Nat
  caps : List (Option (Nat × List Char))
deriving DecidableEq, Repr

/-- The `RegExpExecArray` view of a ground-truth match: positions are
forgotten, only the texts remain. -/
def GroundMatch.toExecArray (g : GroundMatch) : MatchData :=
  { index := g.index, arr := g.caps.map (fun c => c.map (fun x => x.2)) }

/-- The last participating capture group of a ground-truth match:
`(group number, (absolute start, text))`. -/
def GroundMatch.lastFired (g : GroundMatch) : Option (Nat × (Nat × List Char)) :=
  (((g.caps.enum).filter (fun v => v.2.isSome)).getLast?).bind
    (fun v => (v.2).map (fun x => (v.1, x)))

/-- The span the last participating capture group actually occupies on line
`line`. -/
def GroundMatch.lastFiredSpan (g : GroundMatch) (line : Nat) : Option Range :=
  (g.lastFired).map (fun v => ⟨⟨line, v.2.1⟩, ⟨line, v.2.1 + v.2.2.length⟩⟩)

/-! ## Concrete scenario instances

A tiny concrete regex engine implementing the combined pattern
`(?:(a)(?:bc))` of the single rule `{pre: "", ugly: "a", post: "bc"}` —
exactly what a JS engine does for that pattern: find the leftmost occurrence
of `abc` at or after `lastIndex`; `match[0] = "abc"`, `match[1] = "a"`. -/

/-- Does `pat` occur in `t` starting at `j`? -/
def matchesAt (t : List Char) (j : Nat) (pat : List Char) : Bool :=
  pat.isPrefixOf (t.drop j)

/-- The first index `j ≥ i` satisfying `p`, searching up to `t.length`. -/
def firstIdxFrom (t : List Char) (i : Nat) (p : Nat → Bool) : Option Nat :=
  (List.range' i (t.length + 1 - i)).find? p

/-- Concrete engine for the combined pattern `(?:(a)(?:bc))`. -/
def execAbc : Regex :=
  ⟨fun t i =>
    (firstIdxFrom t i (fun j => matchesAt t j ['a', 'b', 'c'])).map
      (fun j => { index := j, arr := [some ['a', 'b', 'c'], some ['a']] })⟩

/-- Concrete provider mapping the assembled pattern strings of the rule
`{ugly := "a", post := "bc"}` (and their combined alternation) to `execAbc`.
-/
def providerAbc : RegexProvider :=
  ⟨fun s => if s = "(a)(?:bc)" ∨ s = "(?:(a)(?:bc))" then some execAbc else none⟩

/-- The single substitution of the C1 scenario. -/
def substAbc : Substitution := { ugly := "a", pretty := "α", post := "bc" }

/-- The C1 scenario's initial document: one line `abc`. -/
def docAbc : Doc := [['a', 'b', 'c']]

/-- The C1 scenario's edit: replace the `c` (range [(0,2),(0,3))) by `X`. -/
def changeAbc : Change := { range := ⟨⟨0, 2⟩, ⟨0, 3⟩⟩, text := ['X'] }

/-! ## The C2 invariant: separation machinery -/

/-- The ranges of a list are in order and separated: each one ends at or
before the next begins. -/
abbrev Separated (l : List Range) : Prop :=
  l.Pairwise (fun a b => Pos.BeforeOrEqual a.stop b.start)

/-- Every range of the list is non-degenerate (non-empty). -/
abbrev NonDegenerate (l : List Range) : Prop :=
  ∀ r ∈ l, Pos.Before r.start r.stop

/-- The aggregate index is exactly the union of the per-rule indices. -/
abbrev UnionInv (s : DocState) : Prop :=
  ∀ r, r ∈ s.uglyDecorationRanges ↔ ∃ d ∈ s.prettyDecorations, r ∈ d.ranges

/-- The inductive invariant: union property, separation and non-degeneracy of
the aggregate index. -/
abbrev StrongInv (s : DocState) : Prop :=
  UnionInv s ∧ Separated s.uglyDecorationRanges ∧ NonDegenerate s.uglyDecorationRanges

/-- No pre-existing range of the aggregate index intrudes into the (already
validated) range `parsePretty` is asked to scan: each ends strictly before
the scan range starts or begins strictly after it ends.  This is the
precondition document.ts states as "Assumes that all decorations overlapping
the range have been removed" (lines 200-205). -/
abbrev SafeFor (agg : List Range) (r : Range) : Prop :=
  ∀ p ∈ agg, Pos.Before p.stop r.start ∨ Pos.Before r.stop p.start

/-! # Theorems

Helper lemmas first, then one theorem per claim (with witnesses and
counterexamples where required). -/

theorem Pos.before_iff {a b : Pos} :
    Pos.Before a b ↔ a.line < b.line ∨ (a.line = b.line ∧ a.character < b.character) :=
  Iff.rfl

theorem Pos.beforeOrEqual_refl (a : Pos) : Pos.BeforeOrEqual a a := by
  unfold Pos.BeforeOrEqual; omega

theorem Pos.Before.beforeOrEqual {a b : Pos} (h : Pos.Before a b) : Pos.BeforeOrEqual a b := by
  unfold Pos.Before at h; unfold Pos.BeforeOrEqual; omega

theorem Pos.before_trans {a b c : Pos} (h₁ : Pos.Before a b) (h₂ : Pos.Before b c) :
    Pos.Before a c := by
  unfold Pos.Before at *; omega

theorem Pos.beforeOrEqual_trans {a b c : Pos} (h₁ : Pos.BeforeOrEqual a b)
    (h₂ : Pos.BeforeOrEqual b c) : Pos.BeforeOrEqual a c := by
  unfold Pos.BeforeOrEqual at *; omega

theorem Pos.before_of_beforeOrEqual_of_before {a b c : Pos} (h₁ : Pos.BeforeOrEqual a b)
    (h₂ : Pos.Before b c) : Pos.Before a c := by
  unfold Pos.BeforeOrEqual at h₁; unfold Pos.Before at *; omega

theorem Pos.before_of_before_of_beforeOrEqual {a b c : Pos} (h₁ : Pos.Before a b)
    (h₂ : Pos.BeforeOrEqual b c) : Pos.Before a c := by
  unfold Pos.BeforeOrEqual at h₂; unfold Pos.Before at *; omega

theorem Pos.not_before_iff {a b : Pos} : ¬ Pos.Before a b ↔ Pos.BeforeOrEqual b a := by
  unfold Pos.Before Pos.BeforeOrEqual; omega

theorem Pos.before_irrefl (a : Pos) : ¬ Pos.Before a a := by
  unfold Pos.Before; omega

theorem Pos.before_asymm {a b : Pos} (h : Pos.Before a b) : ¬ Pos.Before b a := by
  unfold Pos.Before at *; omega

theorem Range.overlaps_comm {a b : Range} : Range.Overlaps a b ↔ Range.Overlaps b a := by
  unfold Range.Overlaps; tauto

theorem splitLines_ne_nil (t : List Char) : splitLines t ≠ [] := by
  cases t with
  | nil => simp [splitLines]
  | cons c cs =>
    simp only [splitLines]
    cases splitLines cs with
    | nil => simp
    | cons l ls => by_cases h : c = '\n' <;> simp [h]

theorem DisjointRangeSet.mem_insert {l : DisjointRangeSet} {r a : Range} :
    a ∈ DisjointRangeSet.insert l r ↔ a = r ∨ a ∈ l := by
  induction l with
  | nil => simp [DisjointRangeSet.insert]
  | cons x xs ih =>
    simp only [DisjointRangeSet.insert]
    split
    · simp [or_comm, or_assoc, or_left_comm]
    · simp [ih]; tauto

theorem DisjointRangeSet.mem_insertRanges {l : DisjointRangeSet} {m : List Range} {a : Range} :
    a ∈ DisjointRangeSet.insertRanges l m ↔ a ∈ l ∨ a ∈ m := by
  induction m generalizing l with
  | nil => simp [DisjointRangeSet.insertRanges]
  | cons x xs ih =>
    simp only [DisjointRangeSet.insertRanges, List.foldl_cons] at *
    rw [ih, DisjointRangeSet.mem_insert]
    simp; tauto

theorem DisjointRangeSet.mem_kept {l : DisjointRangeSet} {q : Range} {o : TouchOptions}
    {a : Range} :
    a ∈ (DisjointRangeSet.removeOverlapping l q o).2 ↔
      a ∈ l ∧ DisjointRangeSet.removedBy q o a = false := by
  simp [DisjointRangeSet.removeOverlapping, List.mem_filter]

theorem DisjointRangeSet.findPreceding_le {l : DisjointRangeSet} {p : Pos} {pr : Range}
    (h : DisjointRangeSet.findPreceding l p = some pr) : Pos.BeforeOrEqual pr.stop p := by
  unfold DisjointRangeSet.findPreceding at h
  rcases List.getLast?_eq_some_iff.1 h with ⟨ys, hys⟩
  have hmem : pr ∈ (l.filter (fun r => Pos.isBeforeOrEqual r.stop p)) := by
    rw [hys]; simp
  have := (List.mem_filter.1 hmem).2
  simpa [Pos.isBeforeOrEqual] using this

theorem DisjointRangeSet.findPreceding_mem {l : DisjointRangeSet} {p : Pos} {pr : Range}
    (h : DisjointRangeSet.findPreceding l p = some pr) : pr ∈ l := by
  unfold DisjointRangeSet.findPreceding at h
  rcases List.getLast?_eq_some_iff.1 h with ⟨ys, hys⟩
  have hmem : pr ∈ (l.filter (fun r => Pos.isBeforeOrEqual r.stop p)) := by
    rw [hys]; simp
  exact List.mem_of_mem_filter hmem

/-- C8: after processing any document change event, `onChangeDocument` always
invokes `applyDecorations`, because the guard is `this.changedUglies || true`
(document.ts line 318) — regardless of whether any match was added or
removed. -/
theorem onChangeDocument_always_redraws (s : DocState) (changes : List Change) :
    (onChangeDocument s changes).2 = true := by
  simp [onChangeDocument]

/-- C9: with no successfully compiled rules, `parsePretty` returns its
argument range unvalidated and leaves the whole state — the aggregate index
and every per-rule index included — unchanged (document.ts lines 207-208). -/
theorem parsePretty_no_rules (s : DocState) (r : Range)
    (h : s.prettyDecorations = []) : parsePretty s r = (s, r) := by
  unfold parsePretty
  rw [if_pos (by simp [h])]

/-- Witness for C9 at a concrete state and a range that is not even valid for
the document: the call is the identity. -/
theorem parsePretty_no_rules_witness :
    ({ document := docAbc, prettyDecorations := [], uglyAll := neverMatch,
       uglyDecorationRanges := [], changedUglies := false } : DocState).prettyDecorations = []
    ∧ parsePretty
        { document := docAbc, prettyDecorations := [], uglyAll := neverMatch,
          uglyDecorationRanges := [], changedUglies := false } ⟨⟨5, 7⟩, ⟨9, 2⟩⟩
      = ({ document := docAbc, prettyDecorations := [], uglyAll := neverMatch,
           uglyDecorationRanges := [], changedUglies := false }, ⟨⟨5, 7⟩, ⟨9, 2⟩⟩) :=
  ⟨rfl, parsePretty_no_rules _ _ rfl⟩

/-- C5: the last-line loop of `parsePretty` (document.ts lines 244-258)
computes exactly the spec-described reconciliation of the candidate stream
against the ascending pre-existing matches: it stops at the first candidate
exactly equal to the current pre-existing match (inserting nothing further,
so that match and everything after it are kept); otherwise the candidate is
inserted, advancing past the current pre-existing match exactly when its
start is before the candidate's end. -/
theorem lastLineScan_eq_reconcile (re : Regex) (text : List Char) (lineNo : Nat) :
    ∀ (fuel i : Nat) (ps : List Range),
      lastLineScan re text lineNo fuel i ps = reconcile (scanLineFrom re text lineNo i fuel) ps := by
  intro fuel
  induction fuel with
  | zero => intro i ps; simp [lastLineScan, scanLineFrom, reconcile]
  | succ n ih =>
    intro i ps
    simp only [lastLineScan, scanLineFrom]
    cases hm : re.exec text i with
    | none => simp [reconcile]
    | some m =>
      cases hu : getUglyFromMatch m lineNo with
      | none => simp only [hu]; exact ih _ ps
      | some u =>
        simp only [hu]
        cases ps with
        | nil => simp [reconcile, ih]
        | cons p ps' =>
          simp only [reconcile]
          by_cases he : u.range = p
          · simp [Range.isEqual, he]
          · rw [if_neg (by simp [Range.isEqual, he]), if_neg he]
            by_cases hb : Pos.Before p.start u.range.stop
            · rw [if_pos (by simp [Pos.isBefore, hb]), if_pos hb, ih]
            · rw [if_neg (by simp [Pos.isBefore, hb]), if_neg hb, ih]

/-- C1 (code bug): the incremental index and a full re-scan diverge.  Rule
`{ugly := "a", post := "bc"}` on document `"abc"` records the match `[0,1)`;
replacing the `c` by `X` edits only the rule's post context, two columns past
the recorded match, so the edit neither overlaps nor touches it and the
re-scan of `[(0,2),(0,3))` resumes after it — the stale match survives, while
a full re-scan of `"abX"` finds nothing. -/
theorem incremental_full_rescan_divergence :
    (processChange (initState providerAbc [substAbc] docAbc) changeAbc).uglyDecorationRanges
        = [⟨⟨0, 0⟩, ⟨0, 1⟩⟩]
    ∧ (refreshState (processChange (initState providerAbc [substAbc] docAbc)
          changeAbc)).uglyDecorationRanges = []
    ∧ (processChange (initState providerAbc [substAbc] docAbc) changeAbc).document
        = [['a', 'b', 'X']] := by
  refine ⟨rfl, rfl, rfl⟩

theorem getUglyFromMatch_some {m : MatchData} {ln : Nat} {u : UglyMatch}
    (h : getUglyFromMatch m ln = some u) :
    ∃ k o, ((m.arr.enum).filter (fun v => v.2.isSome)).getLast? = some (k, o) ∧
      1 < ((m.arr.enum).filter (fun v => v.2.isSome)).length ∧
      u = { range := ⟨⟨ln, m.index + indexOfSub m.full ((m.arr.getD k none).getD [])⟩,
                      ⟨ln, m.index + indexOfSub m.full ((m.arr.getD k none).getD []) +
                        ((m.arr.getD k none).getD []).length⟩⟩,
            prettyIndex := k - 1,
            lastIndex := m.index + indexOfSub m.full ((m.arr.getD k none).getD []) +
              ((m.arr.getD k none).getD []).length } := by
  unfold getUglyFromMatch at h
  by_cases hlen : ((m.arr.enum).filter (fun v => v.2.isSome)).length ≤ 1
  · rw [if_pos hlen] at h; exact absurd h (by simp)
  · rw [if_neg hlen] at h
    cases hl : ((m.arr.enum).filter (fun v => v.2.isSome)).getLast? with
    | none => rw [hl] at h; exact absurd h (by simp)
    | some lastm =>
      rw [hl] at h
      refine ⟨lastm.1, lastm.2, by simp [hl], by omega, ?_⟩
      exact (Option.some_inj.1 h).symm

/-- C10: after a match is attributed, `getUglyFromMatch` stores the end of
the ugly capture — not the end of the whole regex match — as the combined
regex's `lastIndex` (document.ts lines 193-194), and the scan loop resumes
the search exactly there, so text the match consumed only as post-context
(between the capture's end and the whole match's end) is still inside the
region searched for the next candidate. -/
theorem getUglyFromMatch_resumes_at_capture_end (re : Regex) (t : List Char) (ln fuel i : Nat)
    (m : MatchData) (u : UglyMatch) (hm : re.exec t i = some m)
    (hu : getUglyFromMatch m ln = some u) :
    u.lastIndex = u.range.stop.character ∧
    (u.range.stop.character < m.index + m.full.length →
      u.lastIndex < m.index + m.full.length) ∧
    scanLineFrom re t ln i (fuel + 1) = u :: scanLineFrom re t ln u.range.stop.character fuel := by
  obtain ⟨k, o, _, _, hu1⟩ := getUglyFromMatch_some hu
  have h1 : u.lastIndex = u.range.stop.character := by rw [hu1]
  refine ⟨h1, by omega, ?_⟩
  simp only [scanLineFrom, hm, hu, ← h1]

/-- Witness for C10: the single match of `(?:(a)(?:bc))` on `"abc"` consumes
`bc` as post-context; the stored `lastIndex` is 1 (the capture's end), not 3
(the whole match's end), and the loop resumes at 1. -/
theorem getUglyFromMatch_resumes_witness :
    execAbc.exec ['a', 'b', 'c'] 0 = some ⟨0, [some ['a', 'b', 'c'], some ['a']]⟩ ∧
    getUglyFromMatch ⟨0, [some ['a', 'b', 'c'], some ['a']]⟩ 0
      = some ⟨⟨⟨0, 0⟩, ⟨0, 1⟩⟩, 0, 1⟩ ∧
    ((⟨⟨⟨0, 0⟩, ⟨0, 1⟩⟩, 0, 1⟩ : UglyMatch).lastIndex
        = (⟨⟨⟨0, 0⟩, ⟨0, 1⟩⟩, 0, 1⟩ : UglyMatch).range.stop.character ∧
      ((⟨⟨⟨0, 0⟩, ⟨0, 1⟩⟩, 0, 1⟩ : UglyMatch).range.stop.character
          < (⟨0, [some ['a', 'b', 'c'], some ['a']]⟩ : MatchData).index
            + (⟨0, [some ['a', 'b', 'c'], some ['a']]⟩ : MatchData).full.length →
        (⟨⟨⟨0, 0⟩, ⟨0, 1⟩⟩, 0, 1⟩ : UglyMatch).lastIndex
          < (⟨0, [some ['a', 'b', 'c'], some ['a']]⟩ : MatchData).index
            + (⟨0, [some ['a', 'b', 'c'], some ['a']]⟩ : MatchData).full.length) ∧
      scanLineFrom execAbc ['a', 'b', 'c'] 0 0 (4 + 1)
        = ⟨⟨⟨0, 0⟩, ⟨0, 1⟩⟩, 0, 1⟩ :: scanLineFrom execAbc ['a', 'b', 'c'] 0 1 4) :=
  ⟨rfl, rfl,
    getUglyFromMatch_resumes_at_capture_end execAbc ['a', 'b', 'c'] 0 4 0 _ _ rfl rfl⟩

theorem loadDecorationsAux_spec (P : RegexProvider) (substs : List Substitution) :
    loadDecorationsAux P substs
      = (substs.filterMap (fun s => (P.compile (uglyPatternString s)).map
            (fun re => { ugly := re, pretty := s.pretty, ranges := [] })),
         (substs.filter (fun s => (P.compile (uglyPatternString s)).isSome)).map
            (fun s => "(?:" ++ uglyPatternString s ++ ")"),
         (substs.filter (fun s => (P.compile (uglyPatternString s)).isNone)).map
            (fun s => "Could not add rule \"" ++ uglyPatternString s ++ "\" --> \""
              ++ s.pretty ++ "\"; invalid regular expression")) := by
  induction substs with
  | nil => rfl
  | cons s rest ih =>
    simp only [loadDecorationsAux, ih]
    cases hc : P.compile (uglyPatternString s) with
    | none => simp [List.filterMap_cons, List.filter_cons, hc]
    | some re => simp [List.filterMap_cons, List.filter_cons, hc]

/-- C7: a substitution whose assembled pattern (optional pre context,
parenthesised ugly pattern, optional post context) fails to compile is
dropped with a warning: it appears in neither `prettyDecorations` nor the
combined alternation `uglyAll`, while every rule that does compile is kept in
order and participates in the combined pattern; `loadDecorations` is a total
function, so the failure never propagates to the caller (document.ts
lines 118-142). -/
theorem loadDecorations_drops_invalid_rules (P : RegexProvider) (substs : List Substitution) :
    (loadDecorations P substs).1
      = substs.filterMap (fun s => (P.compile (uglyPatternString s)).map
          (fun re => { ugly := re, pretty := s.pretty, ranges := [] }))
    ∧ (loadDecorations P substs).2.2
      = (substs.filter (fun s => (P.compile (uglyPatternString s)).isNone)).map
          (fun s => "Could not add rule \"" ++ uglyPatternString s ++ "\" --> \""
            ++ s.pretty ++ "\"; invalid regular expression")
    ∧ (loadDecorations P substs).2.1
      = (P.compile (String.intercalate "|"
          ((substs.filter (fun s => (P.compile (uglyPatternString s)).isSome)).map
            (fun s => "(?:" ++ uglyPatternString s ++ ")")))).getD neverMatch := by
  unfold loadDecorations
  rw [loadDecorationsAux_spec]
  exact ⟨rfl, rfl, rfl⟩

theorem enumFrom_map_optmap_filter {α β : Type _} (f : α → β) (l : List (Option α)) (n : Nat) :
    ((l.map (Option.map f)).enumFrom n).filter (fun v => v.2.isSome)
      = ((l.enumFrom n).filter (fun v => v.2.isSome)).map
          (fun v => (v.1, v.2.map f)) := by
  induction l generalizing n with
  | nil => rfl
  | cons o os ih =>
    cases o <;>
      simp [List.enumFrom_cons, List.filter_cons, ih]

theorem enum_map_optmap_filter {α β : Type _} (f : α → β) (l : List (Option α)) :
    ((l.map (Option.map f)).enum).filter (fun v => v.2.isSome)
      = ((l.enum).filter (fun v => v.2.isSome)).map (fun v => (v.1, v.2.map f)) :=
  enumFrom_map_optmap_filter f l 0

/-- C3 counterexample: for the ground-truth match of a pattern like
`(?:a)(a)` on the line `"aa"` (full match `"aa"` at 0, capture group `"a"`
at offset 1), `getUglyFromMatch` records the range `[(0,0),(0,1))` — the
first occurrence of the capture's text inside the whole match — while the
capture group's actual span is `[(0,1),(0,2))`: the recorded range does not
span the last non-empty capturing group's text at its own position. -/
theorem getUglyFromMatch_not_group_span :
    (getUglyFromMatch
        (GroundMatch.toExecArray ⟨0, [some (0, ['a', 'a']), some (1, ['a'])]⟩) 0).map
        (fun u => u.range)
      = some ⟨⟨0, 0⟩, ⟨0, 1⟩⟩
    ∧ GroundMatch.lastFiredSpan ⟨0, [some (0, ['a', 'a']), some (1, ['a'])]⟩ 0
      = some ⟨⟨0, 1⟩, ⟨0, 2⟩⟩
    ∧ (⟨⟨0, 0⟩, ⟨0, 1⟩⟩ : Range) ≠ ⟨⟨0, 1⟩, ⟨0, 2⟩⟩ := by
  refine ⟨rfl, rfl, by decide⟩

/-- C3 amended: for every match with a participating capture group, the rule
credited is determined by the last participating capturing group
(`prettyIndex` = its group number − 1), and the recorded range spans text
equal to that group's text placed at the first occurrence of that text
within the whole match (offset from `match.index`); this coincides with the
group's actual span exactly when that first occurrence is at the group's own
offset. -/
theorem getUglyFromMatch_lastGroup (g : GroundMatch) (ln k p : Nat) (s : List Char)
    (hlast : g.lastFired = some (k, (p, s)))
    (hlen : 1 < (((g.toExecArray).arr.enum).filter (fun v => v.2.isSome)).length) :
    ∃ u, getUglyFromMatch g.toExecArray ln = some u ∧
      u.prettyIndex = k - 1 ∧
      u.range = ⟨⟨ln, g.index + indexOfSub (g.toExecArray).full s⟩,
                 ⟨ln, g.index + indexOfSub (g.toExecArray).full s + s.length⟩⟩ ∧
      (g.index + indexOfSub (g.toExecArray).full s = p →
        GroundMatch.lastFiredSpan g ln = some u.range) := by
  -- unpack the ground-truth last fired group
  unfold GroundMatch.lastFired at hlast
  cases hgl : ((g.caps.enum).filter (fun v => v.2.isSome)).getLast? with
  | none => rw [hgl] at hlast; exact absurd hlast (by simp)
  | some v =>
    rw [hgl] at hlast
    simp only [Option.some_bind] at hlast
    cases hv2 : v.2 with
    | none => rw [hv2] at hlast; exact absurd hlast (by simp)
    | some x =>
      rw [hv2] at hlast
      simp only [Option.map_some'] at hlast
      have hv1 : v.1 = k := by cases hlast; rfl
      have hx : x = (p, s) := by cases hlast; rfl
      -- the exec-array view of the filtered enum
      have harr : (g.toExecArray).arr = g.caps.map (Option.map (fun y => y.2)) := rfl
      have hfilter :
          (((g.toExecArray).arr.enum).filter (fun w => w.2.isSome))
            = ((g.caps.enum).filter (fun w => w.2.isSome)).map
                (fun w => (w.1, w.2.map (fun y => y.2))) := by
        rw [harr]; exact enum_map_optmap_filter _ g.caps
      have hlast' :
          (((g.toExecArray).arr.enum).filter (fun w => w.2.isSome)).getLast?
            = some (k, some s) := by
        rw [hfilter, List.getLast?_map, hgl]
        simp [hv1, hv2, hx]
      -- membership facts of the ground-truth entry
      have hmemf : (k, some (p, s)) ∈ (g.caps.enum).filter (fun w => w.2.isSome) := by
        rcases List.getLast?_eq_some_iff.1 hgl with ⟨ys, hys⟩
        rw [hys]
        have : v = (k, some (p, s)) := by
          cases v; simp only at hv1 hv2; rw [hv1, hv2, hx]
        rw [← this]; simp
      have hmem : (k, some (p, s)) ∈ g.caps.enum := List.mem_of_mem_filter hmemf
      obtain ⟨hk, hcap⟩ := List.mem_enum hmem
      -- the match string read back from the exec array is s
      have hgetD : ((g.toExecArray).arr.getD k none) = some s := by
        rw [harr, List.getD_eq_getElem?_getD, List.getElem?_map,
          List.getElem?_eq_getElem hk, ← hcap]
        rfl
      -- now evaluate getUglyFromMatch
      unfold getUglyFromMatch
      rw [if_neg (by omega), hlast']
      simp only [hgetD, Option.getD_some]
      refine ⟨_, rfl, rfl, rfl, ?_⟩
      intro hocc
      unfold GroundMatch.lastFiredSpan GroundMatch.lastFired
      rw [hgl]
      simp only [Option.some_bind, hv2, Option.map_some']
      simp only [hv1, hx]
      have hidx : (g.toExecArray).index = g.index := rfl
      simp [hidx, hocc]

/-- Witness for the amended C3 at the ground-truth match of `(?:a)(b)` on
`"ab"`: the capture's text `"b"` first occurs in `"ab"` at its own offset, so
the recorded range equals the group's actual span. -/
theorem getUglyFromMatch_lastGroup_witness :
    GroundMatch.lastFired ⟨0, [some (0, ['a', 'b']), some (1, ['b'])]⟩ = some (1, (1, ['b']))
    ∧ 1 < ((((⟨0, [some (0, ['a', 'b']), some (1, ['b'])]⟩ : GroundMatch).toExecArray).arr.enum).filter
          (fun v => v.2.isSome)).length
    ∧ (∃ u, getUglyFromMatch
          (⟨0, [some (0, ['a', 'b']), some (1, ['b'])]⟩ : GroundMatch).toExecArray 0 = some u ∧
        u.prettyIndex = 1 - 1 ∧
        u.range = ⟨⟨0, 0 + indexOfSub ((⟨0, [some (0, ['a', 'b']), some (1, ['b'])]⟩ :
                      GroundMatch).toExecArray).full ['b']⟩,
                   ⟨0, 0 + indexOfSub ((⟨0, [some (0, ['a', 'b']), some (1, ['b'])]⟩ :
                      GroundMatch).toExecArray).full ['b'] + (['b'] : List Char).length⟩⟩ ∧
        (0 + indexOfSub ((⟨0, [some (0, ['a', 'b']), some (1, ['b'])]⟩ :
            GroundMatch).toExecArray).full ['b'] = 1 →
          GroundMatch.lastFiredSpan ⟨0, [some (0, ['a', 'b']), some (1, ['b'])]⟩ 0
            = some u.range)) :=
  ⟨rfl, by decide,
    getUglyFromMatch_lastGroup ⟨0, [some (0, ['a', 'b']), some (1, ['b'])]⟩ 0 1 1 ['b'] rfl
      (by decide)⟩

theorem parsePretty_ret_start (s : DocState) (r : Range) (h : s.prettyDecorations ≠ []) :
    (parsePretty s r).2.start
      = ⟨(validateRange s.document r).start.line,
         resumeColumn s.uglyDecorationRanges (validateRange s.document r).start⟩ := by
  unfold parsePretty
  rw [if_neg (by simpa [List.length_eq_zero] using h)]
  simp only
  split <;> rfl

/-- C4: with a non-empty rule set, `parsePretty` resumes scanning at the end
of the pre-existing match located by `findPreceding` when that match ends on
the (validated) range's start line — that end is at or before the range's
start — and otherwise at column 0 of that line; the returned range's start is
exactly that resumed column on the start line (document.ts lines 215-220 and
272-276). -/
theorem parsePretty_resume_column (s : DocState) (r : Range)
    (h : s.prettyDecorations ≠ []) :
    (∀ pr, DisjointRangeSet.findPreceding s.uglyDecorationRanges
          (validateRange s.document r).start = some pr →
        pr.stop.line = (validateRange s.document r).start.line →
        (parsePretty s r).2.start
            = ⟨(validateRange s.document r).start.line, pr.stop.character⟩ ∧
          Pos.BeforeOrEqual pr.stop (validateRange s.document r).start) ∧
    ((∀ pr, DisjointRangeSet.findPreceding s.uglyDecorationRanges
          (validateRange s.document r).start = some pr →
        pr.stop.line ≠ (validateRange s.document r).start.line) →
      (parsePretty s r).2.start = ⟨(validateRange s.document r).start.line, 0⟩) := by
  have hstart := parsePretty_ret_start s r h
  constructor
  · intro pr hpr hline
    refine ⟨?_, DisjointRangeSet.findPreceding_le hpr⟩
    rw [hstart]
    unfold resumeColumn
    rw [hpr]
    simp [hline]
  · intro hnone
    rw [hstart]
    unfold resumeColumn
    cases hfp : DisjointRangeSet.findPreceding s.uglyDecorationRanges
        (validateRange s.document r).start with
    | none => rfl
    | some pr => simp [hnone pr hfp]

/-- Witness for C4: a state holding the match `[(0,0),(0,1))` on the line
`"abc"`, reparsing `[(0,2),(0,3))`: the scan resumes at column 1 (the end of
the preceding match) and the returned range starts there. -/
theorem parsePretty_resume_column_witness :
    ({ document := docAbc, prettyDecorations := [⟨execAbc, "α", [⟨⟨0, 0⟩, ⟨0, 1⟩⟩]⟩],
       uglyAll := execAbc, uglyDecorationRanges := [⟨⟨0, 0⟩, ⟨0, 1⟩⟩],
       changedUglies := false } : DocState).prettyDecorations ≠ []
    ∧ ((parsePretty
          { document := docAbc, prettyDecorations := [⟨execAbc, "α", [⟨⟨0, 0⟩, ⟨0, 1⟩⟩]⟩],
            uglyAll := execAbc, uglyDecorationRanges := [⟨⟨0, 0⟩, ⟨0, 1⟩⟩],
            changedUglies := false } ⟨⟨0, 2⟩, ⟨0, 3⟩⟩).2.start = ⟨0, 1⟩
        ∧ Pos.BeforeOrEqual ⟨0, 1⟩ ⟨0, 2⟩) :=
  ⟨List.cons_ne_nil _ _,
    (parsePretty_resume_column
        { document := docAbc, prettyDecorations := [⟨execAbc, "α", [⟨⟨0, 0⟩, ⟨0, 1⟩⟩]⟩],
          uglyAll := execAbc, uglyDecorationRanges := [⟨⟨0, 0⟩, ⟨0, 1⟩⟩],
          changedUglies := false } ⟨⟨0, 2⟩, ⟨0, 3⟩⟩ (List.cons_ne_nil _ _)).1
      ⟨⟨0, 0⟩, ⟨0, 1⟩⟩ rfl rfl⟩

/-- C6: when the furthest fresh match ends strictly past the (validated)
range's end, `parsePretty` removes every pre-existing range overlapping the
span from the range's end to that furthest end from the aggregate index and
from every per-rule index, and only then merges the fresh matches in
(document.ts lines 260-270); consequently a pre-existing range overlapping
the widened region can be present afterwards only as a re-found fresh match.
-/
theorem parsePretty_widened_invalidation (s : DocState) (r : Range)
    (h : s.prettyDecorations ≠ [])
    (hb : Pos.Before (validateRange s.document r).stop
      (DisjointRangeSet.getEnd (DisjointRangeSet.insertRanges []
        ((freshMatches s (validateRange s.document r)).map (fun u => u.range))))) :
    (parsePretty s r).1.uglyDecorationRanges
      = DisjointRangeSet.insertRanges
          (DisjointRangeSet.removeOverlapping s.uglyDecorationRanges
            ⟨(validateRange s.document r).stop,
             DisjointRangeSet.getEnd (DisjointRangeSet.insertRanges []
               ((freshMatches s (validateRange s.document r)).map (fun u => u.range)))⟩ {}).2
          (DisjointRangeSet.insertRanges []
            ((freshMatches s (validateRange s.document r)).map (fun u => u.range)))
    ∧ (parsePretty s r).1.prettyDecorations
      = mergeFresh
          (s.prettyDecorations.map (fun d =>
            { d with ranges := (DisjointRangeSet.removeOverlapping d.ranges
                ⟨(validateRange s.document r).stop,
                 DisjointRangeSet.getEnd (DisjointRangeSet.insertRanges []
                   ((freshMatches s (validateRange s.document r)).map
                     (fun u => u.range)))⟩ {}).2 }))
          (prettyFreshSets s.prettyDecorations.length
            (freshMatches s (validateRange s.document r)))
    ∧ ∀ p ∈ s.uglyDecorationRanges,
        Range.Overlaps p ⟨(validateRange s.document r).stop,
          DisjointRangeSet.getEnd (DisjointRangeSet.insertRanges []
            ((freshMatches s (validateRange s.document r)).map (fun u => u.range)))⟩ →
        p ∈ (parsePretty s r).1.uglyDecorationRanges →
        p ∈ (freshMatches s (validateRange s.document r)).map (fun u => u.range) := by
  have hpp :
      (parsePretty s r).1.uglyDecorationRanges
        = DisjointRangeSet.insertRanges
            (DisjointRangeSet.removeOverlapping s.uglyDecorationRanges
              ⟨(validateRange s.document r).stop,
               DisjointRangeSet.getEnd (DisjointRangeSet.insertRanges []
                 ((freshMatches s (validateRange s.document r)).map (fun u => u.range)))⟩ {}).2
            (DisjointRangeSet.insertRanges []
              ((freshMatches s (validateRange s.document r)).map (fun u => u.range)))
      ∧ (parsePretty s r).1.prettyDecorations
        = mergeFresh
            (s.prettyDecorations.map (fun d =>
              { d with ranges := (DisjointRangeSet.removeOverlapping d.ranges
                  ⟨(validateRange s.document r).stop,
                   DisjointRangeSet.getEnd (DisjointRangeSet.insertRanges []
                     ((freshMatches s (validateRange s.document r)).map
                       (fun u => u.range)))⟩ {}).2 }))
            (prettyFreshSets s.prettyDecorations.length
              (freshMatches s (validateRange s.document r))) := by
    unfold parsePretty
    rw [if_neg (by simpa [List.length_eq_zero] using h)]
    simp only
    rw [if_pos (by simpa [Pos.isBefore] using hb)]
    exact ⟨rfl, rfl⟩
  refine ⟨hpp.1, hpp.2, ?_⟩
  intro p hp hov hres
  rw [hpp.1] at hres
  rcases DisjointRangeSet.mem_insertRanges.1 hres with hkept | hnew
  · exfalso
    have := (DisjointRangeSet.mem_kept.1 hkept).2
    unfold DisjointRangeSet.removedBy at this
    simp [hov] at this
  · exact DisjointRangeSet.mem_insertRanges.1 hnew |>.elim (by simp) id

/-- Witness for C6: the state holds a stale match `[(0,0),(0,3))` on line
`"abc"`; reparsing the empty range at `(0,0)` finds the fresh match
`[(0,1))`, which extends past the range's end, so the stale range (which
overlaps the widened region) is removed and only the fresh match remains. -/
theorem parsePretty_widened_invalidation_witness :
    ({ document := docAbc, prettyDecorations := [⟨execAbc, "α", [⟨⟨0, 0⟩, ⟨0, 3⟩⟩]⟩],
       uglyAll := execAbc, uglyDecorationRanges := [⟨⟨0, 0⟩, ⟨0, 3⟩⟩],
       changedUglies := false } : DocState).prettyDecorations ≠ []
    ∧ Pos.Before
        (validateRange docAbc ⟨⟨0, 0⟩, ⟨0, 0⟩⟩).stop
        (DisjointRangeSet.getEnd (DisjointRangeSet.insertRanges []
          ((freshMatches
              { document := docAbc, prettyDecorations := [⟨execAbc, "α", [⟨⟨0, 0⟩, ⟨0, 3⟩⟩]⟩],
                uglyAll := execAbc, uglyDecorationRanges := [⟨⟨0, 0⟩, ⟨0, 3⟩⟩],
                changedUglies := false }
              (validateRange docAbc ⟨⟨0, 0⟩, ⟨0, 0⟩⟩)).map (fun u => u.range))))
    ∧ ((parsePretty
          { document := docAbc, prettyDecorations := [⟨execAbc, "α", [⟨⟨0, 0⟩, ⟨0, 3⟩⟩]⟩],
            uglyAll := execAbc, uglyDecorationRanges := [⟨⟨0, 0⟩, ⟨0, 3⟩⟩],
            changedUglies := false } ⟨⟨0, 0⟩, ⟨0, 0⟩⟩).1.uglyDecorationRanges
        = [⟨⟨0, 0⟩, ⟨0, 1⟩⟩]
      ∧ ∀ p ∈ ([⟨⟨0, 0⟩, ⟨0, 3⟩⟩] : DisjointRangeSet),
          Range.Overlaps p ⟨⟨0, 0⟩, ⟨0, 1⟩⟩ →
          p ∈ (parsePretty
              { document := docAbc, prettyDecorations := [⟨execAbc, "α", [⟨⟨0, 0⟩, ⟨0, 3⟩⟩]⟩],
                uglyAll := execAbc, uglyDecorationRanges := [⟨⟨0, 0⟩, ⟨0, 3⟩⟩],
                changedUglies := false } ⟨⟨0, 0⟩, ⟨0, 0⟩⟩).1.uglyDecorationRanges →
          p ∈ (freshMatches
              { document := docAbc, prettyDecorations := [⟨execAbc, "α", [⟨⟨0, 0⟩, ⟨0, 3⟩⟩]⟩],
                uglyAll := execAbc, uglyDecorationRanges := [⟨⟨0, 0⟩, ⟨0, 3⟩⟩],
                changedUglies := false }
              (validateRange docAbc ⟨⟨0, 0⟩, ⟨0, 0⟩⟩)).map (fun u => u.range)) :=
  ⟨List.cons_ne_nil _ _, by decide,
    ⟨(parsePretty_widened_invalidation
        { document := docAbc, prettyDecorations := [⟨execAbc, "α", [⟨⟨0, 0⟩, ⟨0, 3⟩⟩]⟩],
          uglyAll := execAbc, uglyDecorationRanges := [⟨⟨0, 0⟩, ⟨0, 3⟩⟩],
          changedUglies := false } ⟨⟨0, 0⟩, ⟨0, 0⟩⟩ (List.cons_ne_nil _ _) (by decide)).1,
     (parsePretty_widened_invalidation
        { document := docAbc, prettyDecorations := [⟨execAbc, "α", [⟨⟨0, 0⟩, ⟨0, 3⟩⟩]⟩],
          uglyAll := execAbc, uglyDecorationRanges := [⟨⟨0, 0⟩, ⟨0, 3⟩⟩],
          changedUglies := false } ⟨⟨0, 0⟩, ⟨0, 0⟩⟩ (List.cons_ne_nil _ _) (by decide)).2.2⟩⟩

theorem DisjointRangeSet.insert_append {l : DisjointRangeSet} {r : Range}
    (h : ∀ x ∈ l, ¬ Pos.Before r.start x.start) :
    DisjointRangeSet.insert l r = l ++ [r] := by
  induction l with
  | nil => rfl
  | cons x xs ih =>
    simp only [DisjointRangeSet.insert]
    rw [if_neg (by simp [Pos.isBefore, h x (by simp)])]
    rw [ih (fun y hy => h y (by simp [hy]))]
    rfl

theorem separated_insert {l : List Range} {r : Range} (hs : Separated l)
    (hw : ∀ x ∈ l, Pos.BeforeOrEqual x.start x.stop)
    (hc : ∀ x ∈ l, (Pos.Before x.start r.start ∧ Pos.BeforeOrEqual x.stop r.start) ∨
      (Pos.Before r.start x.start ∧ Pos.BeforeOrEqual r.stop x.start)) :
    Separated (DisjointRangeSet.insert l r) := by
  induction l with
  | nil => simp [DisjointRangeSet.insert, Separated]
  | cons x xs ih =>
    obtain ⟨hx_all, hxs⟩ := List.pairwise_cons.1 hs
    simp only [DisjointRangeSet.insert]
    by_cases hb : Pos.Before r.start x.start
    · rw [if_pos (by simp [Pos.isBefore, hb])]
      refine List.pairwise_cons.2 ⟨?_, hs⟩
      intro y hy
      rcases List.mem_cons.1 hy with rfl | hy
      · rcases hc y (by simp) with ⟨h1, _⟩ | ⟨_, h2⟩
        · exact absurd hb (Pos.before_asymm h1)
        · exact h2
      · rcases hc y (by simp [hy]) with ⟨h1, _⟩ | ⟨_, h2⟩
        · exfalso
          have hxy := hx_all y hy
          have hwx := hw x (by simp)
          exact Pos.before_irrefl r.start (Pos.before_trans hb
            (Pos.before_of_beforeOrEqual_of_before (Pos.beforeOrEqual_trans hwx hxy) h1))
        · exact h2
    · rw [if_neg (by simp [Pos.isBefore, hb])]
      refine List.pairwise_cons.2
        ⟨?_, ih hxs (fun y hy => hw y (by simp [hy])) (fun y hy => hc y (by simp [hy]))⟩
      intro y hy
      rcases DisjointRangeSet.mem_insert.1 hy with rfl | hy'
      · rcases hc x (by simp) with ⟨_, h2⟩ | ⟨h1, _⟩
        · exact h2
        · exact absurd h1 hb
      · exact hx_all y hy'

theorem separated_insertRanges {l : DisjointRangeSet} {m : List Range} (hs : Separated l)
    (hw : ∀ x ∈ l, Pos.BeforeOrEqual x.start x.stop)
    (hm : m.Pairwise (fun a b => Pos.BeforeOrEqual a.stop b.start))
    (hmw : ∀ u ∈ m, Pos.Before u.start u.stop)
    (hc : ∀ x ∈ l, ∀ c ∈ m,
      (Pos.Before x.start c.start ∧ Pos.BeforeOrEqual x.stop c.start) ∨
      (Pos.Before c.start x.start ∧ Pos.BeforeOrEqual c.stop x.start)) :
    Separated (DisjointRangeSet.insertRanges l m) := by
  induction m generalizing l with
  | nil => exact hs
  | cons c cs ih =>
    obtain ⟨hc_all, hcs⟩ := List.pairwise_cons.1 hm
    have hl' : Separated (DisjointRangeSet.insert l c) :=
      separated_insert hs hw (fun x hx => hc x hx c (by simp))
    have hw' : ∀ x ∈ DisjointRangeSet.insert l c, Pos.BeforeOrEqual x.start x.stop := by
      intro x hx
      rcases DisjointRangeSet.mem_insert.1 hx with rfl | hx'
      · exact (hmw x (by simp)).beforeOrEqual
      · exact hw x hx'
    have hcc : ∀ x ∈ DisjointRangeSet.insert l c, ∀ c' ∈ cs,
        (Pos.Before x.start c'.start ∧ Pos.BeforeOrEqual x.stop c'.start) ∨
        (Pos.Before c'.start x.start ∧ Pos.BeforeOrEqual c'.stop x.start) := by
      intro x hx c' hc'
      rcases DisjointRangeSet.mem_insert.1 hx with rfl | hx'
      · left
        have hgap := hc_all c' hc'
        exact ⟨Pos.before_of_before_of_beforeOrEqual (hmw x (by simp)) hgap, hgap⟩
      · exact hc x hx' c' (by simp [hc'])
    exact ih hl' hw' hcs (fun u hu => hmw u (by simp [hu])) hcc

theorem insertRanges_nil_eq {m : List Range}
    (hm : m.Pairwise (fun a b => Pos.Before a.start b.start)) :
    DisjointRangeSet.insertRanges [] m = m := by
  suffices h : ∀ (acc : DisjointRangeSet), (∀ x ∈ acc, ∀ y ∈ m, ¬ Pos.Before y.start x.start) →
      DisjointRangeSet.insertRanges acc m = acc ++ m by
    simpa using h [] (by simp)
  induction m with
  | nil => intro acc _; simp [DisjointRangeSet.insertRanges]
  | cons c cs ih =>
    intro acc hacc
    obtain ⟨hc_all, hcs⟩ := List.pairwise_cons.1 hm
    have h1 : DisjointRangeSet.insert acc c = acc ++ [c] :=
      DisjointRangeSet.insert_append (fun x hx => hacc x hx c (by simp))
    have h2 := ih hcs (acc ++ [c]) (by
      intro x hx y hy
      rcases List.mem_append.1 hx with hx' | hx'
      · exact hacc x hx' y (by simp [hy])
      · have : x = c := by simpa using hx'
        subst this
        exact Pos.before_asymm (hc_all y hy))
    show DisjointRangeSet.insertRanges (DisjointRangeSet.insert acc c) cs = acc ++ c :: cs
    rw [h1, h2]
    simp

theorem enumFrom_fst_pairwise {α : Type _} (l : List α) (n : Nat) :
    (List.enumFrom n l).Pairwise (fun a b => a.1 < b.1) := by
  induction l generalizing n with
  | nil => simp
  | cons x xs ih =>
    rw [List.enumFrom_cons]
    refine List.pairwise_cons.2 ⟨?_, ih (n + 1)⟩
    intro y hy
    have := (List.mem_enumFrom hy).1
    omega

theorem enum_fst_pairwise {α : Type _} (l : List α) :
    (l.enum).Pairwise (fun a b => a.1 < b.1) := enumFrom_fst_pairwise l 0

theorem pairwise_lt_getLast_ge {α : Type _} {l : List (Nat × α)} {v : Nat × α}
    (hp : l.Pairwise (fun a b => a.1 < b.1)) (hlen : 1 < l.length)
    (hl : l.getLast? = some v) : 1 ≤ v.1 := by
  rcases List.getLast?_eq_some_iff.1 hl with ⟨ys, rfl⟩
  cases ys with
  | nil => simp at hlen
  | cons z zs =>
    have h1 := (List.pairwise_cons.1 hp).1
    have := h1 v (by simp)
    omega

theorem getLast?_mem {α : Type _} {l : List α} {v : α} (h : l.getLast? = some v) : v ∈ l := by
  rcases List.getLast?_eq_some_iff.1 h with ⟨ys, rfl⟩
  simp

theorem getUglyFromMatch_fields {m : MatchData} {ln : Nat} {u : UglyMatch}
    (h : getUglyFromMatch m ln = some u) :
    u.range.start.line = ln ∧ u.range.stop.line = ln ∧
    m.index ≤ u.range.start.character ∧
    u.range.start.character ≤ u.range.stop.character ∧
    u.lastIndex = u.range.stop.character := by
  obtain ⟨k, o, hl, hlen, rfl⟩ := getUglyFromMatch_some h
  exact ⟨rfl, rfl, Nat.le_add_right _ _, Nat.le_add_right _ _, rfl⟩

theorem getUglyFromMatch_nondegenerate {m : MatchData} {ln : Nat} {u : UglyMatch}
    (h : getUglyFromMatch m ln = some u)
    (hne : ∀ j s, 1 ≤ j → m.arr.getD j none = some s → s ≠ []) :
    Pos.Before u.range.start u.range.stop := by
  obtain ⟨k, o, hl, hlen, rfl⟩ := getUglyFromMatch_some h
  have hp : ((m.arr.enum).filter (fun v => v.2.isSome)).Pairwise (fun a b => a.1 < b.1) :=
    List.Pairwise.sublist (List.filter_sublist _) (enum_fst_pairwise m.arr)
  have hk1 : 1 ≤ k := pairwise_lt_getLast_ge hp hlen hl
  have hmemf := getLast?_mem hl
  have hsome : o.isSome := by
    have := (List.mem_filter.1 hmemf).2
    simpa using this
  obtain ⟨s, rfl⟩ := Option.isSome_iff_exists.1 hsome
  have hmem : (k, some s) ∈ m.arr.enum := List.mem_of_mem_filter hmemf
  obtain ⟨hk, hcap⟩ := List.mem_enum hmem
  have hgd : m.arr.getD k none = some s := by
    rw [List.getD_eq_getElem?_getD, List.getElem?_eq_getElem hk, ← hcap]
    rfl
  have hs : s ≠ [] := hne k s hk1 hgd
  have hlenpos : 0 < s.length := List.length_pos.2 hs
  simp only [hgd, Option.getD_some]
  right
  refine ⟨rfl, ?_⟩
  show m.index + indexOfSub m.full s < m.index + indexOfSub m.full s + s.length
  omega

theorem getUglyFromMatch_prettyIndex_lt {m : MatchData} {ln : Nat} {u : UglyMatch} {n : Nat}
    (h : getUglyFromMatch m ln = some u) (hn : 1 ≤ n)
    (hb : m.arr.length ≤ n + 1) : u.prettyIndex < n := by
  obtain ⟨k, o, hl, hlen, rfl⟩ := getUglyFromMatch_some h
  have hmem : (k, o) ∈ m.arr.enum := List.mem_of_mem_filter (getLast?_mem hl)
  have hk := (List.mem_enum hmem).1
  show k - 1 < n
  omega

theorem scanLineFrom_bounds {re : Regex} {t : List Char} {ln : Nat}
    (hge : ∀ t i m, re.exec t i = some m → i ≤ m.index) :
    ∀ (fuel i : Nat), ∀ u ∈ scanLineFrom re t ln i fuel,
      u.range.start.line = ln ∧ u.range.stop.line = ln ∧
      i ≤ u.range.start.character ∧
      u.range.start.character ≤ u.range.stop.character ∧
      u.lastIndex = u.range.stop.character := by
  intro fuel
  induction fuel with
  | zero => intro i u hu; simp [scanLineFrom] at hu
  | succ n ih =>
    intro i u hu
    rw [scanLineFrom] at hu
    split at hu
    · simp at hu
    next m hm =>
      split at hu
      next hg =>
        obtain ⟨h1, h2, h3, h4, h5⟩ := ih _ u hu
        have := hge t i m hm
        exact ⟨h1, h2, by omega, h4, h5⟩
      next u0 hg =>
        rcases List.mem_cons.1 hu with rfl | hu'
        · obtain ⟨h1, h2, h3, h4, h5⟩ := getUglyFromMatch_fields hg
          have := hge t i m hm
          exact ⟨h1, h2, by omega, h4, h5⟩
        · obtain ⟨h1, h2, h3, h4, h5⟩ := ih _ u hu'
          obtain ⟨g1, g2, g3, g4, g5⟩ := getUglyFromMatch_fields hg
          have := hge t i m hm
          exact ⟨h1, h2, by omega, h4, h5⟩

theorem scanLineFrom_chain {re : Regex} {t : List Char} {ln : Nat}
    (hge : ∀ t i m, re.exec t i = some m → i ≤ m.index) :
    ∀ (fuel i : Nat),
      (scanLineFrom re t ln i fuel).Pairwise
        (fun a b => a.range.stop.character ≤ b.range.start.character) := by
  intro fuel
  induction fuel with
  | zero => intro i; simp [scanLineFrom]
  | succ n ih =>
    intro i
    rw [scanLineFrom]
    split
    · simp
    next m hm =>
      split
      next hg => exact ih _
      next u0 hg =>
        refine List.pairwise_cons.2 ⟨?_, ih _⟩
        intro b hb
        obtain ⟨_, _, h3, _, _⟩ := scanLineFrom_bounds hge n u0.lastIndex b hb
        obtain ⟨_, _, _, _, g5⟩ := getUglyFromMatch_fields hg
        omega

theorem lastLineScan_sublist (re : Regex) (t : List Char) (ln : Nat) :
    ∀ (fuel i : Nat) (ps : List Range),
      List.Sublist (lastLineScan re t ln fuel i ps) (scanLineFrom re t ln i fuel) := by
  intro fuel
  induction fuel with
  | zero => intro i ps; simp [lastLineScan, scanLineFrom]
  | succ n ih =>
    intro i ps
    rw [lastLineScan, scanLineFrom]
    split
    · exact List.Sublist.refl _
    next m hm =>
      split
      next hg => exact ih _ _
      next u0 hg =>
        split
        · exact (ih _ _).cons₂ _
        · split
          · exact List.nil_sublist _
          · split
            · exact (ih _ _).cons₂ _
            · exact (ih _ _).cons₂ _

theorem scanLineFrom_nondegenerate {re : Regex} {t : List Char} {ln : Nat}
    (hne : ∀ t i m, re.exec t i = some m →
      ∀ j s, 1 ≤ j → m.arr.getD j none = some s → s ≠ []) :
    ∀ (fuel i : Nat), ∀ u ∈ scanLineFrom re t ln i fuel,
      Pos.Before u.range.start u.range.stop := by
  intro fuel
  induction fuel with
  | zero => intro i u hu; simp [scanLineFrom] at hu
  | succ n ih =>
    intro i u hu
    rw [scanLineFrom] at hu
    split at hu
    · simp at hu
    next m hm =>
      split at hu
      next hg => exact ih _ u hu
      next u0 hg =>
        rcases List.mem_cons.1 hu with rfl | hu'
        · exact getUglyFromMatch_nondegenerate hg (hne t i m hm)
        · exact ih _ u hu'

theorem scanLineFrom_prettyIndex {re : Regex} {t : List Char} {ln n : Nat}
    (hb : ∀ t i m, re.exec t i = some m → m.arr.length ≤ n + 1) (hn : 1 ≤ n) :
    ∀ (fuel i : Nat), ∀ u ∈ scanLineFrom re t ln i fuel, u.prettyIndex < n := by
  intro fuel
  induction fuel with
  | zero => intro i u hu; simp [scanLineFrom] at hu
  | succ k ih =>
    intro i u hu
    rw [scanLineFrom] at hu
    split at hu
    · simp at hu
    next m hm =>
      split at hu
      next hg => exact ih _ u hu
      next u0 hg =>
        rcases List.mem_cons.1 hu with rfl | hu'
        · exact getUglyFromMatch_prettyIndex_lt hg hn (hb t i m hm)
        · exact ih _ u hu'

theorem freshMatches_mem {s : DocState} {r : Range}
    (hge : ∀ t i m, s.uglyAll.exec t i = some m → i ≤ m.index)
    (hwf : Pos.BeforeOrEqual r.start r.stop) :
    ∀ u ∈ freshMatches s r,
      u.range.start.line = u.range.stop.line ∧
      r.start.line ≤ u.range.start.line ∧ u.range.start.line ≤ r.stop.line ∧
      (u.range.start.line = r.start.line →
        resumeColumn s.uglyDecorationRanges r.start ≤ u.range.start.character) ∧
      u.range.start.character ≤ u.range.stop.character := by
  intro u hu
  unfold freshMatches at hu
  rcases List.mem_append.1 hu with hmid | hlast
  · rw [List.mem_flatten] at hmid
    obtain ⟨l, hl, hul⟩ := hmid
    rw [List.mem_map] at hl
    obtain ⟨idx, hidx, rfl⟩ := hl
    rw [List.mem_range'_1] at hidx
    obtain ⟨h1, h2, h3, h4, _⟩ := scanLineFrom_bounds hge _ _ u hul
    refine ⟨by rw [h1, h2], by omega, by omega, ?_, h4⟩
    intro hline
    rw [h1] at hline
    subst hline
    simpa using h3
  · have hsub := lastLineScan_sublist s.uglyAll (lineAt s.document r.stop.line) r.stop.line
      ((lineAt s.document r.stop.line).length + 1)
      (if r.stop.line = r.start.line then resumeColumn s.uglyDecorationRanges r.start else 0)
      (DisjointRangeSet.getRangesStartingAt s.uglyDecorationRanges r.stop)
    have hu' := List.Sublist.mem hlast hsub
    obtain ⟨h1, h2, h3, h4, _⟩ := scanLineFrom_bounds hge _ _ u hu'
    have hline_le : r.start.line ≤ r.stop.line := by
      unfold Pos.BeforeOrEqual at hwf; omega
    refine ⟨by rw [h1, h2], by omega, by omega, ?_, h4⟩
    intro hline
    rw [h1] at hline
    rw [if_pos hline] at h3
    exact h3

theorem pairwise_char_to_range {l : List UglyMatch} {ln : Nat}
    (hline : ∀ u ∈ l, u.range.start.line = ln ∧ u.range.stop.line = ln)
    (hchain : l.Pairwise (fun a b => a.range.stop.character ≤ b.range.start.character)) :
    l.Pairwise (fun a b => Pos.BeforeOrEqual a.range.stop b.range.start) := by
  refine hchain.imp_of_mem ?_
  intro a b ha hb hc
  have h1 := (hline a ha).2
  have h2 := (hline b hb).1
  unfold Pos.BeforeOrEqual
  omega

theorem freshMatches_nondegenerate {s : DocState} {r : Range}
    (hne : ∀ t i m, s.uglyAll.exec t i = some m →
      ∀ j str, 1 ≤ j → m.arr.getD j none = some str → str ≠ []) :
    ∀ u ∈ freshMatches s r, Pos.Before u.range.start u.range.stop := by
  intro u hu
  unfold freshMatches at hu
  rcases List.mem_append.1 hu with hmid | hlast
  · rw [List.mem_flatten] at hmid
    obtain ⟨l, hl, hul⟩ := hmid
    rw [List.mem_map] at hl
    obtain ⟨idx, _, rfl⟩ := hl
    exact scanLineFrom_nondegenerate hne _ _ u hul
  · have hsub := lastLineScan_sublist s.uglyAll (lineAt s.document r.stop.line) r.stop.line
      ((lineAt s.document r.stop.line).length + 1)
      (if r.stop.line = r.start.line then resumeColumn s.uglyDecorationRanges r.start else 0)
      (DisjointRangeSet.getRangesStartingAt s.uglyDecorationRanges r.stop)
    exact scanLineFrom_nondegenerate hne _ _ u (List.Sublist.mem hlast hsub)

theorem freshMatches_prettyIndex {s : DocState} {r : Range} {n : Nat}
    (hb : ∀ t i m, s.uglyAll.exec t i = some m → m.arr.length ≤ n + 1) (hn : 1 ≤ n) :
    ∀ u ∈ freshMatches s r, u.prettyIndex < n := by
  intro u hu
  unfold freshMatches at hu
  rcases List.mem_append.1 hu with hmid | hlast
  · rw [List.mem_flatten] at hmid
    obtain ⟨l, hl, hul⟩ := hmid
    rw [List.mem_map] at hl
    obtain ⟨idx, _, rfl⟩ := hl
    exact scanLineFrom_prettyIndex hb hn _ _ u hul
  · have hsub := lastLineScan_sublist s.uglyAll (lineAt s.document r.stop.line) r.stop.line
      ((lineAt s.document r.stop.line).length + 1)
      (if r.stop.line = r.start.line then resumeColumn s.uglyDecorationRanges r.start else 0)
      (DisjointRangeSet.getRangesStartingAt s.uglyDecorationRanges r.stop)
    exact scanLineFrom_prettyIndex hb hn _ _ u (List.Sublist.mem hlast hsub)

theorem freshMatches_pairwise {s : DocState} {r : Range}
    (hge : ∀ t i m, s.uglyAll.exec t i = some m → i ≤ m.index) :
    (freshMatches s r).Pairwise
      (fun a b => Pos.BeforeOrEqual a.range.stop b.range.start) := by
  refine List.pairwise_append.2 ⟨?_, ?_, ?_⟩
  · refine List.pairwise_flatten.2 ⟨?_, ?_⟩
    · intro l hl
      rw [List.mem_map] at hl
      obtain ⟨idx, _, rfl⟩ := hl
      refine @pairwise_char_to_range _ idx ?_ (scanLineFrom_chain hge _ _)
      intro u hu
      obtain ⟨h1, h2, _, _, _⟩ := scanLineFrom_bounds hge _ _ u hu
      exact ⟨h1, h2⟩
    · rw [List.pairwise_map]
      refine (List.pairwise_lt_range' _ _).imp_of_mem ?_
      intro i1 i2 h1 h2 hlt u hu v hv
      obtain ⟨_, hu2, _, _, _⟩ := scanLineFrom_bounds hge _ _ u hu
      obtain ⟨hv1, _, _, _, _⟩ := scanLineFrom_bounds hge _ _ v hv
      unfold Pos.BeforeOrEqual
      omega
  · have hsub := lastLineScan_sublist s.uglyAll (lineAt s.document r.stop.line) r.stop.line
      ((lineAt s.document r.stop.line).length + 1)
      (if r.stop.line = r.start.line then resumeColumn s.uglyDecorationRanges r.start else 0)
      (DisjointRangeSet.getRangesStartingAt s.uglyDecorationRanges r.stop)
    refine @pairwise_char_to_range _ r.stop.line ?_
      (List.Pairwise.sublist hsub (scanLineFrom_chain hge _ _))
    intro u hu
    obtain ⟨h1, h2, _, _, _⟩ := scanLineFrom_bounds hge _ _ u (List.Sublist.mem hu hsub)
    exact ⟨h1, h2⟩
  · intro u hu v hv
    rw [List.mem_flatten] at hu
    obtain ⟨l, hl, hul⟩ := hu
    rw [List.mem_map] at hl
    obtain ⟨idx, hidx, rfl⟩ := hl
    rw [List.mem_range'_1] at hidx
    obtain ⟨_, hu2, _, _, _⟩ := scanLineFrom_bounds hge _ _ u hul
    have hsub := lastLineScan_sublist s.uglyAll (lineAt s.document r.stop.line) r.stop.line
      ((lineAt s.document r.stop.line).length + 1)
      (if r.stop.line = r.start.line then resumeColumn s.uglyDecorationRanges r.start else 0)
      (DisjointRangeSet.getRangesStartingAt s.uglyDecorationRanges r.stop)
    obtain ⟨hv1, _, _, _, _⟩ := scanLineFrom_bounds hge _ _ v (List.Sublist.mem hv hsub)
    unfold Pos.BeforeOrEqual
    omega

theorem pairwise_getLast {α : Type _} {R : α → α → Prop} {l : List α} {x g : α}
    (hp : l.Pairwise R) (hx : x ∈ l) (hg : l.getLast? = some g) : x = g ∨ R x g := by
  rcases List.getLast?_eq_some_iff.1 hg with ⟨ys, rfl⟩
  rcases List.mem_append.1 hx with hx' | hx'
  · right
    exact (List.pairwise_append.1 hp).2.2 x hx' g (by simp)
  · left; simpa using hx'

theorem resumeColumn_ge {agg : List Range} {p : Pos} {x : Range}
    (hsep : Separated agg) (hw : ∀ y ∈ agg, Pos.BeforeOrEqual y.start y.stop)
    (hx : x ∈ agg) (hxp : Pos.BeforeOrEqual x.stop p) (hline : x.stop.line = p.line) :
    x.stop.character ≤ resumeColumn agg p := by
  unfold resumeColumn DisjointRangeSet.findPreceding
  have hxf : x ∈ agg.filter (fun r => Pos.isBeforeOrEqual r.stop p) :=
    List.mem_filter.2 ⟨hx, by simp [Pos.isBeforeOrEqual, hxp]⟩
  cases hgl : (agg.filter (fun r => Pos.isBeforeOrEqual r.stop p)).getLast? with
  | none =>
    rw [List.getLast?_eq_none_iff] at hgl
    rw [hgl] at hxf
    simp at hxf
  | some pr =>
    have hpf : (agg.filter (fun r => Pos.isBeforeOrEqual r.stop p)).Pairwise
        (fun a b => Pos.BeforeOrEqual a.stop b.start) :=
      List.Pairwise.sublist (List.filter_sublist _) hsep
    have hor := pairwise_getLast hpf hxf hgl
    have hprmem := getLast?_mem hgl
    have hprp : Pos.BeforeOrEqual pr.stop p := by
      have := (List.mem_filter.1 hprmem).2
      simpa [Pos.isBeforeOrEqual] using this
    have hprw : Pos.BeforeOrEqual pr.start pr.stop := hw pr (List.mem_of_mem_filter hprmem)
    have hxs : Pos.BeforeOrEqual x.stop pr.stop := by
      rcases hor with rfl | hr
      · exact Pos.beforeOrEqual_refl _
      · exact Pos.beforeOrEqual_trans hr hprw
    show x.stop.character ≤ if pr.stop.line = p.line then pr.stop.character else 0
    by_cases hl2 : pr.stop.line = p.line
    · rw [if_pos hl2]
      unfold Pos.BeforeOrEqual at hxs
      omega
    · exfalso
      unfold Pos.BeforeOrEqual at hxs hprp
      omega

theorem getEnd_le {l : List Range}
    (hsep : l.Pairwise (fun a b => Pos.BeforeOrEqual a.stop b.start))
    (hw : ∀ x ∈ l, Pos.BeforeOrEqual x.start x.stop) :
    ∀ x ∈ l, Pos.BeforeOrEqual x.stop (DisjointRangeSet.getEnd l) := by
  intro x hx
  unfold DisjointRangeSet.getEnd
  cases hgl : l.getLast? with
  | none =>
    rw [List.getLast?_eq_none_iff] at hgl
    rw [hgl] at hx
    simp at hx
  | some g =>
    rcases pairwise_getLast hsep hx hgl with rfl | hr
    · exact Pos.beforeOrEqual_refl _
    · exact Pos.beforeOrEqual_trans hr (hw g (getLast?_mem hgl))

theorem mergeFresh_exists_iff {x : Range} :
    ∀ (decs : List PrettySubstitution) (npr : List DisjointRangeSet),
      decs.length = npr.length →
      ((∃ d ∈ mergeFresh decs npr, x ∈ d.ranges) ↔
        (∃ d ∈ decs, x ∈ d.ranges) ∨ (∃ l ∈ npr, x ∈ l)) := by
  intro decs
  induction decs with
  | nil =>
    intro npr hlen
    have hnil : npr = [] := by
      cases npr with
      | nil => rfl
      | cons a b => simp at hlen
    subst hnil
    simp [mergeFresh]
  | cons d ds ih =>
    intro npr hlen
    cases npr with
    | nil => simp at hlen
    | cons nr nrs =>
      simp only [mergeFresh]
      constructor
      · intro hex
        rcases hex with ⟨d', hd', hx⟩
        rcases List.mem_cons.1 hd' with rfl | hd''
        · rcases DisjointRangeSet.mem_insertRanges.1 hx with hx' | hx'
          · exact Or.inl ⟨d, by simp, hx'⟩
          · exact Or.inr ⟨nr, by simp, hx'⟩
        · rcases (ih nrs (by simpa using hlen)).1 ⟨d', hd'', hx⟩ with ⟨d'', h1, h2⟩ | ⟨l, h1, h2⟩
          · exact Or.inl ⟨d'', by simp [h1], h2⟩
          · exact Or.inr ⟨l, by simp [h1], h2⟩
      · intro hor
        rcases hor with ⟨d', hd', hx⟩ | ⟨l, hl, hx⟩
        · rcases List.mem_cons.1 hd' with rfl | hd''
          · refine ⟨_, List.mem_cons_self _ _, ?_⟩
            exact DisjointRangeSet.mem_insertRanges.2 (Or.inl hx)
          · rcases (ih nrs (by simpa using hlen)).2 (Or.inl ⟨d', hd'', hx⟩) with ⟨d'', h1, h2⟩
            exact ⟨d'', by simp [h1], h2⟩
        · rcases List.mem_cons.1 hl with rfl | hl'
          · refine ⟨_, List.mem_cons_self _ _, ?_⟩
            exact DisjointRangeSet.mem_insertRanges.2 (Or.inr hx)
          · rcases (ih nrs (by simpa using hlen)).2 (Or.inr ⟨l, hl', hx⟩) with ⟨d'', h1, h2⟩
            exact ⟨d'', by simp [h1], h2⟩

theorem prettyFreshSets_exists_iff {n : Nat} {fresh : List UglyMatch} {x : Range}
    (hfI : ∀ u ∈ fresh, u.prettyIndex < n) :
    (∃ l ∈ prettyFreshSets n fresh, x ∈ l) ↔ x ∈ fresh.map (fun u => u.range) := by
  unfold prettyFreshSets
  constructor
  · intro ⟨l, hl, hx⟩
    rw [List.mem_map] at hl
    obtain ⟨i, _, rfl⟩ := hl
    rcases DisjointRangeSet.mem_insertRanges.1 hx with hx' | hx'
    · simp at hx'
    · rw [List.mem_map] at hx'
      obtain ⟨u, hu, rfl⟩ := hx'
      exact List.mem_map.2 ⟨u, List.mem_of_mem_filter hu, rfl⟩
  · intro hx
    rw [List.mem_map] at hx
    obtain ⟨u, hu, rfl⟩ := hx
    refine ⟨_, List.mem_map.2 ⟨u.prettyIndex, List.mem_range.2 (hfI u hu), rfl⟩, ?_⟩
    refine DisjointRangeSet.mem_insertRanges.2 (Or.inr ?_)
    exact List.mem_map.2 ⟨u, List.mem_filter.2 ⟨hu, by simp⟩, rfl⟩

theorem mergeFresh_length :
    ∀ (decs : List PrettySubstitution) (npr : List DisjointRangeSet),
      (mergeFresh decs npr).length = decs.length := by
  intro decs
  induction decs with
  | nil => intro npr; simp [mergeFresh]
  | cons d ds ih =>
    intro npr
    cases npr with
    | nil => simp [mergeFresh]
    | cons nr nrs => simp [mergeFresh, ih]

theorem parsePretty_state (s : DocState) (r0 : Range) (h : s.prettyDecorations ≠ []) :
    ((parsePretty s r0).1.uglyDecorationRanges
      = DisjointRangeSet.insertRanges
          (if Pos.isBefore (validateRange s.document r0).stop
              (DisjointRangeSet.getEnd (DisjointRangeSet.insertRanges []
                ((freshMatches s (validateRange s.document r0)).map (fun u => u.range))))
           then (DisjointRangeSet.removeOverlapping s.uglyDecorationRanges
              ⟨(validateRange s.document r0).stop,
               DisjointRangeSet.getEnd (DisjointRangeSet.insertRanges []
                 ((freshMatches s (validateRange s.document r0)).map
                   (fun u => u.range)))⟩ {}).2
           else s.uglyDecorationRanges)
          (DisjointRangeSet.insertRanges []
            ((freshMatches s (validateRange s.document r0)).map (fun u => u.range))))
    ∧ ((parsePretty s r0).1.prettyDecorations
      = mergeFresh
          (if Pos.isBefore (validateRange s.document r0).stop
              (DisjointRangeSet.getEnd (DisjointRangeSet.insertRanges []
                ((freshMatches s (validateRange s.document r0)).map (fun u => u.range))))
           then s.prettyDecorations.map (fun d =>
             { d with ranges := (DisjointRangeSet.removeOverlapping d.ranges
                 ⟨(validateRange s.document r0).stop,
                  DisjointRangeSet.getEnd (DisjointRangeSet.insertRanges []
                    ((freshMatches s (validateRange s.document r0)).map
                      (fun u => u.range)))⟩ {}).2 })
           else s.prettyDecorations)
          (prettyFreshSets s.prettyDecorations.length
            (freshMatches s (validateRange s.document r0)))) := by
  unfold parsePretty
  rw [if_neg (by simpa [List.length_eq_zero] using h)]
  simp only
  split
  next hb => exact ⟨rfl, rfl⟩
  next hb => exact ⟨rfl, rfl⟩

theorem fresh_compat_one {s : DocState} {r' : Range}
    (hge : ∀ t i m, s.uglyAll.exec t i = some m → i ≤ m.index)
    (hne : ∀ t i m, s.uglyAll.exec t i = some m →
      ∀ j str, 1 ≤ j → m.arr.getD j none = some str → str ≠ [])
    (hwf : Pos.BeforeOrEqual r'.start r'.stop)
    (hsep : Separated s.uglyDecorationRanges)
    (hnd : NonDegenerate s.uglyDecorationRanges)
    {x : Range} (hx : x ∈ s.uglyDecorationRanges)
    (hclass : Pos.Before x.stop r'.start ∨ Pos.Before r'.stop x.start)
    (hmaxE : Pos.Before r'.stop x.start →
      Pos.BeforeOrEqual
        (DisjointRangeSet.getEnd ((freshMatches s r').map (fun u => u.range))) x.start)
    {c : UglyMatch} (hc : c ∈ freshMatches s r') :
    (Pos.Before x.start c.range.start ∧ Pos.BeforeOrEqual x.stop c.range.start) ∨
    (Pos.Before c.range.start x.start ∧ Pos.BeforeOrEqual c.range.stop x.start) := by
  rcases hclass with hleft | hright
  · left
    obtain ⟨hcl, hcl1, hcl2, hcl3, hcl4⟩ := freshMatches_mem hge hwf c hc
    have hxnd := hnd x hx
    by_cases hlt : x.stop.line < c.range.start.line
    · constructor
      · unfold Pos.Before at hxnd ⊢; omega
      · unfold Pos.BeforeOrEqual; omega
    · have h1 : x.stop.line ≤ r'.start.line := by
        unfold Pos.Before at hleft; omega
      have he1 : x.stop.line = r'.start.line := by omega
      have he2 : c.range.start.line = r'.start.line := by omega
      have hrc : resumeColumn s.uglyDecorationRanges r'.start ≤ c.range.start.character :=
        hcl3 he2
      have hxc : x.stop.character ≤ resumeColumn s.uglyDecorationRanges r'.start :=
        resumeColumn_ge hsep (fun y hy => (hnd y hy).beforeOrEqual) hx
          hleft.beforeOrEqual he1
      have hgap : Pos.BeforeOrEqual x.stop c.range.start := by
        unfold Pos.BeforeOrEqual; omega
      exact ⟨Pos.before_of_before_of_beforeOrEqual hxnd hgap, hgap⟩
  · right
    have hmax := hmaxE hright
    have hfrP : ((freshMatches s r').map (fun u => u.range)).Pairwise
        (fun a b => Pos.BeforeOrEqual a.stop b.start) :=
      List.pairwise_map.2 (freshMatches_pairwise hge)
    have hfrW : ∀ y ∈ (freshMatches s r').map (fun u => u.range),
        Pos.BeforeOrEqual y.start y.stop := by
      intro y hy
      rw [List.mem_map] at hy
      obtain ⟨u, hu, rfl⟩ := hy
      exact (freshMatches_nondegenerate hne u hu).beforeOrEqual
    have hcstop : Pos.BeforeOrEqual c.range.stop
        (DisjointRangeSet.getEnd ((freshMatches s r').map (fun u => u.range))) :=
      getEnd_le hfrP hfrW c.range (List.mem_map.2 ⟨c, hc, rfl⟩)
    have h1 : Pos.BeforeOrEqual c.range.stop x.start :=
      Pos.beforeOrEqual_trans hcstop hmax
    have hcnd := freshMatches_nondegenerate hne c hc
    exact ⟨Pos.before_of_before_of_beforeOrEqual hcnd h1, h1⟩

set_option maxHeartbeats 1000000 in
theorem parsePretty_preserves (s : DocState) (r0 : Range)
    (hG : GoodEngine s.uglyAll s.prettyDecorations.length)
    (hI : StrongInv s)
    (hS : SafeFor s.uglyDecorationRanges (validateRange s.document r0))
    (hwf : Pos.BeforeOrEqual (validateRange s.document r0).start
      (validateRange s.document r0).stop) :
    StrongInv (parsePretty s r0).1 := by
  by_cases hd : s.prettyDecorations = []
  · unfold parsePretty
    rw [if_pos (by simp [hd])]
    exact hI
  · obtain ⟨hunion, hsep, hnd⟩ := hI
    obtain ⟨hge, hb, hne⟩ := hG
    obtain ⟨hagg, hdecs⟩ := parsePretty_state s r0 hd
    set r' := validateRange s.document r0 with hr'def
    set fresh := freshMatches s r' with hfreshdef
    set fr := fresh.map (fun u => u.range) with hfrdef
    have hn : 1 ≤ s.prettyDecorations.length := by
      cases hcs : s.prettyDecorations with
      | nil => exact absurd hcs hd
      | cons a as => simp [hcs]
    have hfrP : fr.Pairwise (fun a b => Pos.BeforeOrEqual a.stop b.start) :=
      List.pairwise_map.2 (freshMatches_pairwise hge)
    have hfrN : ∀ y ∈ fr, Pos.Before y.start y.stop := by
      intro y hy
      rw [hfrdef, List.mem_map] at hy
      obtain ⟨u, hu, rfl⟩ := hy
      exact freshMatches_nondegenerate hne u hu
    have hsorted : fr.Pairwise (fun a b => Pos.Before a.start b.start) := by
      refine hfrP.imp_of_mem ?_
      intro a b ha _ hab
      exact Pos.before_of_before_of_beforeOrEqual (hfrN a ha) hab
    have hid : DisjointRangeSet.insertRanges [] fr = fr := insertRanges_nil_eq hsorted
    rw [hid] at hagg hdecs
    set mx := DisjointRangeSet.getEnd fr with hmxdef
    set extra : Range := ⟨r'.stop, mx⟩ with hextradef
    have hfI : ∀ u ∈ fresh, u.prettyIndex < s.prettyDecorations.length :=
      freshMatches_prettyIndex hb hn
    have hnprlen : (prettyFreshSets s.prettyDecorations.length fresh).length
        = s.prettyDecorations.length := by
      simp [prettyFreshSets]
    by_cases hbr : Pos.Before r'.stop mx
    · rw [if_pos (by simp [Pos.isBefore, hbr])] at hagg
      rw [if_pos (by simp [Pos.isBefore, hbr])] at hdecs
      set kept := (DisjointRangeSet.removeOverlapping s.uglyDecorationRanges extra {}).2
        with hkeptdef
      have hkept : ∀ x, x ∈ kept ↔ x ∈ s.uglyDecorationRanges ∧
          ¬ Range.Overlaps x extra := by
        intro x
        rw [hkeptdef, DisjointRangeSet.mem_kept]
        unfold DisjointRangeSet.removedBy
        simp
      have hcompat : ∀ x ∈ kept, ∀ y ∈ fr,
          (Pos.Before x.start y.start ∧ Pos.BeforeOrEqual x.stop y.start) ∨
          (Pos.Before y.start x.start ∧ Pos.BeforeOrEqual y.stop x.start) := by
        intro x hx y hy
        obtain ⟨hxagg, hxno⟩ := (hkept x).1 hx
        rw [hfrdef, List.mem_map] at hy
        obtain ⟨c, hc, rfl⟩ := hy
        refine fresh_compat_one hge hne hwf hsep hnd hxagg (hS x hxagg) ?_ hc
        intro hright
        have hx2 : Pos.Before extra.start x.stop := Pos.before_trans hright (hnd x hxagg)
        unfold Range.Overlaps at hxno
        rw [Classical.not_and_iff_or_not_not] at hxno
        rcases hxno with h1 | h2
        · exact Pos.not_before_iff.1 h1
        · exact absurd hx2 h2
      refine ⟨?_, ?_, ?_⟩
      · intro x
        rw [hagg, hdecs, DisjointRangeSet.mem_insertRanges,
          mergeFresh_exists_iff _ _ (by simp [hnprlen]),
          prettyFreshSets_exists_iff hfI]
        have hdecs1 : (∃ d ∈ s.prettyDecorations.map (fun d =>
            { d with ranges := (DisjointRangeSet.removeOverlapping d.ranges extra {}).2 }),
            x ∈ d.ranges) ↔ x ∈ kept := by
          rw [hkept x]
          constructor
          · intro ⟨d', hd', hx⟩
            rw [List.mem_map] at hd'
            obtain ⟨d0, hd0, rfl⟩ := hd'
            have h2 := DisjointRangeSet.mem_kept.1 hx
            refine ⟨(hunion x).2 ⟨d0, hd0, h2.1⟩, ?_⟩
            have := h2.2
            unfold DisjointRangeSet.removedBy at this
            simpa using this
          · intro ⟨hxa, hxr⟩
            obtain ⟨d0, hd0, hx0⟩ := (hunion x).1 hxa
            refine ⟨_, List.mem_map.2 ⟨d0, hd0, rfl⟩, ?_⟩
            refine DisjointRangeSet.mem_kept.2 ⟨hx0, ?_⟩
            unfold DisjointRangeSet.removedBy
            simpa using hxr
        rw [hdecs1]
      · rw [hagg]
        refine separated_insertRanges ?_ ?_ hfrP hfrN hcompat
        · exact List.Pairwise.sublist (List.filter_sublist _) hsep
        · intro x hx
          exact (hnd x ((hkept x).1 hx).1).beforeOrEqual
      · intro y hy
        rw [hagg] at hy
        rcases DisjointRangeSet.mem_insertRanges.1 hy with hy' | hy'
        · exact hnd y ((hkept y).1 hy').1
        · exact hfrN y hy'
    · rw [if_neg (by simp [Pos.isBefore, hbr])] at hagg
      rw [if_neg (by simp [Pos.isBefore, hbr])] at hdecs
      have hcompat : ∀ x ∈ s.uglyDecorationRanges, ∀ y ∈ fr,
          (Pos.Before x.start y.start ∧ Pos.BeforeOrEqual x.stop y.start) ∨
          (Pos.Before y.start x.start ∧ Pos.BeforeOrEqual y.stop x.start) := by
        intro x hx y hy
        rw [hfrdef, List.mem_map] at hy
        obtain ⟨c, hc, rfl⟩ := hy
        refine fresh_compat_one hge hne hwf hsep hnd hx (hS x hx) ?_ hc
        intro hright
        have h1 := Pos.not_before_iff.1 hbr
        exact (Pos.before_of_beforeOrEqual_of_before h1 hright).beforeOrEqual
      refine ⟨?_, ?_, ?_⟩
      · intro x
        rw [hagg, hdecs, DisjointRangeSet.mem_insertRanges,
          mergeFresh_exists_iff _ _ (by simp [hnprlen]),
          prettyFreshSets_exists_iff hfI, hunion x]
      · rw [hagg]
        exact separated_insertRanges hsep (fun x hx => (hnd x hx).beforeOrEqual)
          hfrP hfrN hcompat
      · intro y hy
        rw [hagg] at hy
        rcases DisjointRangeSet.mem_insertRanges.1 hy with hy' | hy'
        · exact hnd y hy'
        · exact hfrN y hy'

theorem Pos.before_of_beforeOrEqual_ne {a b : Pos} (h : Pos.BeforeOrEqual a b)
    (hne : a ≠ b) : Pos.Before a b := by
  unfold Pos.BeforeOrEqual at h
  unfold Pos.Before
  rcases h with h | ⟨h1, h2⟩
  · exact Or.inl h
  · by_cases hc : a.character = b.character
    · exfalso
      apply hne
      cases a; cases b
      simp_all
    · exact Or.inr ⟨h1, by omega⟩

theorem kept_classified {l : List Range} {q : Range} {x : Range}
    (hx : x ∈ (DisjointRangeSet.removeOverlapping l q ⟨true, true⟩).2) :
    x ∈ l ∧ (Pos.Before x.stop q.start ∨ Pos.Before q.stop x.start) := by
  have hm := DisjointRangeSet.mem_kept.1 hx
  refine ⟨hm.1, ?_⟩
  have h2 := hm.2
  unfold DisjointRangeSet.removedBy at h2
  simp only [Bool.or_eq_false_iff, Bool.and_eq_false_iff, decide_eq_false_iff_not] at h2
  obtain ⟨⟨hov, hts⟩, hte⟩ := h2
  have hts' : x.stop ≠ q.start := by
    rcases hts with h | h
    · simp at h
    · exact h
  have hte' : x.start ≠ q.stop := by
    rcases hte with h | h
    · simp at h
    · exact h
  unfold Range.Overlaps at hov
  rw [Classical.not_and_iff_or_not_not] at hov
  rcases hov with h | h
  · right
    exact Pos.before_of_beforeOrEqual_ne (Pos.not_before_iff.1 h) (Ne.symm hte')
  · left
    exact Pos.before_of_beforeOrEqual_ne (Pos.not_before_iff.1 h) hts'

theorem shiftPos_id {c : Change} {p : Pos} (h : Pos.BeforeOrEqual p c.range.stop) :
    shiftPos (toRangeDelta c.range c.text) p = p := by
  unfold shiftPos
  rw [if_neg]
  unfold toRangeDelta
  simp only [Pos.isBefore, decide_eq_true_eq]
  exact Pos.not_before_iff.2 h

theorem newRange_wf (c : Change) :
    Pos.BeforeOrEqual (rangeDeltaNewRange (toRangeDelta c.range c.text)).start
      (rangeDeltaNewRange (toRangeDelta c.range c.text)).stop := by
  unfold rangeDeltaNewRange toRangeDelta Pos.BeforeOrEqual
  dsimp only
  split_ifs with h <;> omega

theorem newRange_start_eq (c : Change) :
    (rangeDeltaNewRange (toRangeDelta c.range c.text)).start = c.range.start := rfl

theorem shiftPos_after {c : Change} {p : Pos} (h : Pos.Before c.range.stop p) :
    Pos.Before (rangeDeltaNewRange (toRangeDelta c.range c.text)).stop
      (shiftPos (toRangeDelta c.range c.text) p) := by
  unfold shiftPos rangeDeltaNewRange toRangeDelta
  simp only [Pos.isBefore, decide_eq_true_eq]
  rw [if_pos h]
  unfold Pos.Before at h ⊢
  split_ifs with h2 <;> dsimp only <;> omega

theorem shiftPos_mono_strict {c : Change} {p q : Pos}
    (hp : Pos.Before c.range.stop p) (hq : Pos.Before c.range.stop q)
    (hpq : Pos.Before p q) :
    Pos.Before (shiftPos (toRangeDelta c.range c.text) p)
      (shiftPos (toRangeDelta c.range c.text) q) := by
  unfold shiftPos toRangeDelta
  simp only [Pos.isBefore, decide_eq_true_eq]
  rw [if_pos hp, if_pos hq]
  unfold Pos.Before at hp hq hpq ⊢
  split_ifs with h1 h2 h2 <;> dsimp only <;> omega

theorem shiftPos_mono_le {c : Change} {p q : Pos}
    (hp : Pos.Before c.range.stop p) (hq : Pos.Before c.range.stop q)
    (hpq : Pos.BeforeOrEqual p q) :
    Pos.BeforeOrEqual (shiftPos (toRangeDelta c.range c.text) p)
      (shiftPos (toRangeDelta c.range c.text) q) := by
  unfold shiftPos toRangeDelta
  simp only [Pos.isBefore, decide_eq_true_eq]
  rw [if_pos hp, if_pos hq]
  unfold Pos.Before at hp hq
  unfold Pos.BeforeOrEqual at hpq ⊢
  split_ifs with h1 h2 h2 <;> dsimp only <;> omega

theorem removeShift_facts {l : List Range} {c : Change}
    (hsep : Separated l) (hnd : NonDegenerate l)
    (hwfc : Pos.BeforeOrEqual c.range.start c.range.stop) :
    Separated (DisjointRangeSet.shiftRangeDelta
        (DisjointRangeSet.removeOverlapping l c.range ⟨true, true⟩).2
        (toRangeDelta c.range c.text))
    ∧ NonDegenerate (DisjointRangeSet.shiftRangeDelta
        (DisjointRangeSet.removeOverlapping l c.range ⟨true, true⟩).2
        (toRangeDelta c.range c.text))
    ∧ SafeFor (DisjointRangeSet.shiftRangeDelta
        (DisjointRangeSet.removeOverlapping l c.range ⟨true, true⟩).2
        (toRangeDelta c.range c.text))
        (rangeDeltaNewRange (toRangeDelta c.range c.text)) := by
  set kept := (DisjointRangeSet.removeOverlapping l c.range ⟨true, true⟩).2 with hkeptdef
  have hclass : ∀ x ∈ kept, x ∈ l ∧
      (Pos.Before x.stop c.range.start ∨ Pos.Before c.range.stop x.start) :=
    fun x hx => kept_classified hx
  have hknd : ∀ x ∈ kept, Pos.Before x.start x.stop := fun x hx => hnd x (hclass x hx).1
  have hksep : Separated kept := List.Pairwise.sublist (List.filter_sublist _) hsep
  have hidL : ∀ x ∈ kept, Pos.Before x.stop c.range.start →
      shiftRange (toRangeDelta c.range c.text) x = x := by
    intro x hx hxl
    have h1 : Pos.BeforeOrEqual x.stop c.range.stop :=
      Pos.beforeOrEqual_trans hxl.beforeOrEqual hwfc
    have h2 : Pos.BeforeOrEqual x.start c.range.stop :=
      Pos.beforeOrEqual_trans (hknd x hx).beforeOrEqual h1
    unfold shiftRange
    rw [shiftPos_id h1, shiftPos_id h2]
  have hstopR : ∀ x ∈ kept, Pos.Before c.range.stop x.start →
      Pos.Before c.range.stop x.stop := by
    intro x hx hxr
    exact Pos.before_trans hxr (hknd x hx)
  refine ⟨?_, ?_, ?_⟩
  · show (kept.map (shiftRange (toRangeDelta c.range c.text))).Pairwise _
    rw [List.pairwise_map]
    refine hksep.imp_of_mem ?_
    intro a b ha hb hab
    rcases (hclass a ha).2 with haL | haR
    · rw [hidL a ha haL]
      rcases (hclass b hb).2 with hbL | hbR
      · rw [hidL b hb hbL]
        exact hab
      · have h1 : Pos.Before a.stop (shiftPos (toRangeDelta c.range c.text) b.start) := by
          refine Pos.before_of_before_of_beforeOrEqual
            (Pos.before_of_before_of_beforeOrEqual haL ?_)
            (shiftPos_after hbR).beforeOrEqual
          exact Pos.beforeOrEqual_trans (by rw [newRange_start_eq]; exact Pos.beforeOrEqual_refl _)
            (newRange_wf c)
        exact h1.beforeOrEqual
    · rcases (hclass b hb).2 with hbL | hbR
      · exfalso
        have h1 : Pos.Before c.range.stop a.stop := hstopR a ha haR
        have h2 : Pos.Before c.range.stop b.start :=
          Pos.before_of_before_of_beforeOrEqual h1 hab
        have h3 : Pos.Before c.range.stop b.stop := Pos.before_trans h2 (hknd b hb)
        have h4 : Pos.Before c.range.stop c.range.start := Pos.before_trans h3 hbL
        exact Pos.before_irrefl _ (Pos.before_of_before_of_beforeOrEqual h4 hwfc)
      · exact shiftPos_mono_le (hstopR a ha haR) hbR hab
  · intro y hy
    rw [show DisjointRangeSet.shiftRangeDelta kept (toRangeDelta c.range c.text)
      = kept.map (shiftRange (toRangeDelta c.range c.text)) from rfl, List.mem_map] at hy
    obtain ⟨x, hx, rfl⟩ := hy
    rcases (hclass x hx).2 with hxL | hxR
    · rw [hidL x hx hxL]
      exact hknd x hx
    · exact shiftPos_mono_strict hxR (hstopR x hx hxR) (hknd x hx)
  · intro y hy
    rw [show DisjointRangeSet.shiftRangeDelta kept (toRangeDelta c.range c.text)
      = kept.map (shiftRange (toRangeDelta c.range c.text)) from rfl, List.mem_map] at hy
    obtain ⟨x, hx, rfl⟩ := hy
    rcases (hclass x hx).2 with hxL | hxR
    · left
      rw [hidL x hx hxL, newRange_start_eq]
      exact hxL
    · right
      exact shiftPos_after hxR

theorem splitLines_single {t l : List Char} (h : splitLines t = [l]) : l = t := by
  induction t generalizing l with
  | nil =>
    rw [splitLines] at h
    simp at h
    simp [h]
  | cons ch cs ih =>
    rw [splitLines] at h
    cases hcs : splitLines cs with
    | nil => exact absurd hcs (splitLines_ne_nil cs)
    | cons m ms =>
      rw [hcs] at h
      have h' : (if ch = '\n' then [] :: m :: ms else (ch :: m) :: ms) = [l] := h
      by_cases hch : ch = '\n'
      · rw [if_pos hch] at h'
        simp at h'
      · rw [if_neg hch] at h'
        simp only [List.cons.injEq] at h'
        obtain ⟨h2, h3⟩ := h'
        subst h3
        rw [← ih hcs, h2]

theorem newRange_stop_eq (c : Change) :
    (rangeDeltaNewRange (toRangeDelta c.range c.text)).stop
      = ⟨c.range.start.line + ((splitLines c.text).length - 1),
         if (splitLines c.text).length - 1 = 0
         then c.range.start.character + c.text.length
         else ((splitLines c.text).getLast?.getD []).length⟩ := by
  unfold rangeDeltaNewRange toRangeDelta
  dsimp only
  congr 1
  · omega
  · split_ifs with h <;> omega

theorem editRange_valid {d : Doc} {c : Change} (hv : ValidChange d c) :
    validateRange (applyEdit d c.range c.text)
      (rangeDeltaNewRange (toRangeDelta c.range c.text))
      = rangeDeltaNewRange (toRangeDelta c.range c.text) := by
  obtain ⟨hord, hel, hsc, hec⟩ := hv
  have hsl_le : c.range.start.line ≤ c.range.stop.line := by
    unfold Pos.BeforeOrEqual at hord; omega
  set pre := (lineAt d c.range.start.line).take c.range.start.character with hpre
  set post := (lineAt d c.range.stop.line).drop c.range.stop.character with hpost
  have hpre_len : pre.length = c.range.start.character := by
    rw [hpre, List.length_take]
    omega
  set merged := mergeLines pre (splitLines c.text) post with hmerged
  have hAdef : applyEdit d c.range c.text
      = d.take c.range.start.line ++ merged ++ d.drop (c.range.stop.line + 1) := rfl
  set A := applyEdit d c.range c.text with hA
  have htake_len : (d.take c.range.start.line).length = c.range.start.line := by
    rw [List.length_take]
    omega
  have hidx : ∀ j, j < merged.length →
      A[c.range.start.line + j]? = merged[j]? := by
    intro j hj
    rw [hAdef, List.append_assoc, List.getElem?_append_right (by omega), htake_len,
      List.getElem?_append_left (by omega)]
    congr 1
    omega
  have hA_len : A.length = c.range.start.line + merged.length
      + (d.length - (c.range.stop.line + 1)) := by
    rw [hAdef]
    simp [List.length_append, htake_len]
    omega
  have hk : merged.length = (splitLines c.text).length ∧
      (∀ h0 : 0 < merged.length,
        c.range.start.character ≤ (merged.get ⟨0, h0⟩).length) ∧
      (∀ hk1 : (splitLines c.text).length - 1 < merged.length,
        (if (splitLines c.text).length - 1 = 0
         then c.range.start.character + c.text.length
         else ((splitLines c.text).getLast?.getD []).length)
          ≤ (merged.get ⟨(splitLines c.text).length - 1, hk1⟩).length) := by
    cases htls : splitLines c.text with
    | nil => exact absurd htls (splitLines_ne_nil _)
    | cons t ts =>
      cases ts with
      | nil =>
        have ht : t = c.text := splitLines_single htls
        rw [hmerged, htls]
        refine ⟨rfl, ?_, ?_⟩
        · intro h0
          simp [mergeLines, hpre_len]
        · intro hk1
          simp [mergeLines, ht, hpre_len]
      | cons t2 ts2 =>
        rw [hmerged, htls]
        have hme : mergeLines pre (t :: t2 :: ts2) post
            = (pre ++ t) :: ((t2 :: ts2).dropLast
              ++ [((t2 :: ts2).getLast?).getD [] ++ post]) := rfl
        rw [hme]
        refine ⟨by simp [List.length_dropLast], ?_, ?_⟩
        · intro h0
          simp [hpre_len]
        · intro hk1
          have hkval : (t :: t2 :: ts2).length - 1 = ts2.length + 1 := by simp
          rw [if_neg (by simp)]
          have hget : ((pre ++ t) :: ((t2 :: ts2).dropLast ++ [((t2 :: ts2).getLast?).getD []
              ++ post]))[(t :: t2 :: ts2).length - 1]?
              = some (((t2 :: ts2).getLast?).getD [] ++ post) := by
            rw [hkval]
            simp only [List.getElem?_cons_succ]
            rw [List.getElem?_append_right (by simp [List.length_dropLast])]
            simp [List.length_dropLast]
          rw [List.getElem?_eq_getElem hk1] at hget
          rw [List.get_eq_getElem, Option.some_inj.1 hget]
          simp [List.getLast?_cons_cons]
  obtain ⟨hklen, h0bound, hkbound⟩ := hk
  have hm_pos : 0 < merged.length := by
    have := splitLines_ne_nil c.text
    rw [hklen]
    cases hsp : splitLines c.text with
    | nil => exact absurd hsp this
    | cons a b => simp
  have hkin : (splitLines c.text).length - 1 < merged.length := by omega
  -- line lengths at the two endpoints
  have hline0 : (lineAt A c.range.start.line).length ≥ c.range.start.character := by
    have h1 : A[c.range.start.line]? = merged[0]? := by
      have := hidx 0 hm_pos
      simpa using this
    unfold lineAt
    rw [List.getD_eq_getElem?_getD, h1, List.getElem?_eq_getElem hm_pos]
    simpa using h0bound hm_pos
  have hlinek : (lineAt A (c.range.start.line + ((splitLines c.text).length - 1))).length
      ≥ (if (splitLines c.text).length - 1 = 0
         then c.range.start.character + c.text.length
         else ((splitLines c.text).getLast?.getD []).length) := by
    have h1 := hidx _ hkin
    unfold lineAt
    rw [List.getD_eq_getElem?_getD, h1, List.getElem?_eq_getElem hkin]
    simpa using hkbound hkin
  -- and now validate
  have hlt0 : c.range.start.line < A.length := by omega
  have hltk : c.range.start.line + ((splitLines c.text).length - 1) < A.length := by omega
  have h1 : validatePosition A c.range.start = c.range.start := by
    unfold validatePosition
    rw [if_pos hlt0]
    congr 1
    exact Nat.min_eq_left hline0
  have h2 : validatePosition A
      (⟨c.range.start.line + ((splitLines c.text).length - 1),
        if (splitLines c.text).length - 1 = 0
        then c.range.start.character + c.text.length
        else ((splitLines c.text).getLast?.getD []).length⟩ : Pos)
      = ⟨c.range.start.line + ((splitLines c.text).length - 1),
        if (splitLines c.text).length - 1 = 0
        then c.range.start.character + c.text.length
        else ((splitLines c.text).getLast?.getD []).length⟩ := by
    unfold validatePosition
    rw [if_pos hltk]
    congr 1
    exact Nat.min_eq_left hlinek
  have hfinal : rangeDeltaNewRange (toRangeDelta c.range c.text)
      = (⟨c.range.start,
          ⟨c.range.start.line + ((splitLines c.text).length - 1),
           if (splitLines c.text).length - 1 = 0
           then c.range.start.character + c.text.length
           else ((splitLines c.text).getLast?.getD []).length⟩⟩ : Range) := by
    rw [← newRange_stop_eq c, ← newRange_start_eq c]
  unfold validateRange
  rw [newRange_start_eq, newRange_stop_eq, h1, h2, hfinal]

theorem validatePosition_mono (d : Doc) {p q : Pos} (h : Pos.BeforeOrEqual p q) :
    Pos.BeforeOrEqual (validatePosition d p) (validatePosition d q) := by
  unfold Pos.BeforeOrEqual at h
  unfold validatePosition
  by_cases hl : p.line = q.line
  · rw [hl]
    split_ifs with h1
    · exact Or.inr ⟨rfl, min_le_min (by omega) le_rfl⟩
    · exact Or.inr ⟨rfl, le_rfl⟩
  · have hpl : p.line < q.line := by omega
    split_ifs with h1 h2
    · exact Or.inl hpl
    · by_cases hlast : p.line = d.length - 1
      · rw [hlast]
        exact Or.inr ⟨rfl, min_le_right _ _⟩
      · exact Or.inl (show p.line < d.length - 1 by omega)
    · exfalso
      omega
    · exact Or.inr ⟨rfl, le_rfl⟩

theorem loadDecorations_ranges_nil {P : RegexProvider} {substs : List Substitution} :
    ∀ d ∈ (loadDecorations P substs).1, d.ranges = ([] : DisjointRangeSet) := by
  intro d hd
  have h1 : (loadDecorations P substs).1 = (loadDecorationsAux P substs).1 := rfl
  rw [h1, loadDecorationsAux_spec] at hd
  simp only [List.mem_filterMap] at hd
  obtain ⟨sub, _, hs⟩ := hd
  cases hc : P.compile (uglyPatternString sub) with
  | none => rw [hc] at hs; simp at hs
  | some re =>
    rw [hc] at hs
    simp only [Option.map_some'] at hs
    cases hs
    rfl

theorem docRange_wf (d : Doc) : Pos.BeforeOrEqual (⟨0, 0⟩ : Pos) ⟨lineCount d, 0⟩ := by
  unfold Pos.BeforeOrEqual lineCount
  by_cases h : d.length = 0
  · exact Or.inr ⟨h.symm, le_rfl⟩
  · exact Or.inl (show 0 < d.length by omega)

theorem initState_strongInv (P : RegexProvider) (substs : List Substitution) (doc : Doc)
    (hG : GoodEngine (loadDecorations P substs).2.1 (loadDecorations P substs).1.length) :
    StrongInv (initState P substs doc) := by
  show StrongInv (parsePretty
    { document := doc, prettyDecorations := (loadDecorations P substs).1,
      uglyAll := (loadDecorations P substs).2.1,
      uglyDecorationRanges := [], changedUglies := false } (docRange doc)).1
  apply parsePretty_preserves
  · exact hG
  · refine ⟨?_, List.Pairwise.nil, fun r hr => absurd hr (List.not_mem_nil r)⟩
    intro r
    simp only [List.not_mem_nil, false_iff]
    rintro ⟨d, hd, hrd⟩
    rw [loadDecorations_ranges_nil d hd] at hrd
    exact absurd hrd (List.not_mem_nil r)
  · exact fun p hp => absurd hp (List.not_mem_nil p)
  · exact validatePosition_mono doc (docRange_wf doc)

theorem refreshState_strongInv (s : DocState)
    (hG : GoodEngine s.uglyAll s.prettyDecorations.length) :
    StrongInv (refreshState s) := by
  unfold refreshState
  apply parsePretty_preserves
  · show GoodEngine s.uglyAll _
    simpa using hG
  · refine ⟨?_, List.Pairwise.nil, fun r hr => absurd hr (List.not_mem_nil r)⟩
    intro r
    simp only [List.not_mem_nil, false_iff]
    rintro ⟨d, hd, hrd⟩
    simp only [List.mem_map] at hd
    obtain ⟨d0, _, rfl⟩ := hd
    exact absurd hrd (List.not_mem_nil r)
  · exact fun p hp => absurd hp (List.not_mem_nil p)
  · exact validatePosition_mono _ (docRange_wf _)

set_option maxHeartbeats 1000000 in
theorem processChange_preserves (s : DocState) (c : Change)
    (hG : GoodEngine s.uglyAll s.prettyDecorations.length)
    (hI : StrongInv s) (hv : ValidChange s.document c) :
    StrongInv (processChange s c) := by
  obtain ⟨hunion, hsep, hnd⟩ := hI
  have hwfc : Pos.BeforeOrEqual c.range.start c.range.stop := hv.1
  obtain ⟨hsep', hnd', hsafe'⟩ :=
    @removeShift_facts s.uglyDecorationRanges c hsep hnd hwfc
  show StrongInv (parsePretty
    { document := applyEdit s.document c.range c.text,
      prettyDecorations := s.prettyDecorations.map (fun d =>
        let k := (DisjointRangeSet.removeOverlapping d.ranges c.range ⟨true, true⟩).2
        { d with ranges := DisjointRangeSet.shiftRangeDelta k (toRangeDelta c.range c.text) }),
      uglyAll := s.uglyAll,
      uglyDecorationRanges := DisjointRangeSet.shiftRangeDelta
        (DisjointRangeSet.removeOverlapping s.uglyDecorationRanges c.range ⟨true, true⟩).2
        (toRangeDelta c.range c.text),
      changedUglies := s.changedUglies
        || decide ((DisjointRangeSet.removeOverlapping s.uglyDecorationRanges c.range
            ⟨true, true⟩).1.length > 0) }
    (rangeDeltaNewRange (toRangeDelta c.range c.text))).1
  apply parsePretty_preserves
  · show GoodEngine s.uglyAll _
    simpa using hG
  · refine ⟨?_, hsep', hnd'⟩
    intro r
    show r ∈ DisjointRangeSet.shiftRangeDelta
        (DisjointRangeSet.removeOverlapping s.uglyDecorationRanges c.range ⟨true, true⟩).2
        (toRangeDelta c.range c.text) ↔ _
    constructor
    · intro hr
      rw [show DisjointRangeSet.shiftRangeDelta
          (DisjointRangeSet.removeOverlapping s.uglyDecorationRanges c.range ⟨true, true⟩).2
          (toRangeDelta c.range c.text)
          = ((DisjointRangeSet.removeOverlapping s.uglyDecorationRanges c.range
              ⟨true, true⟩).2).map (shiftRange (toRangeDelta c.range c.text)) from rfl,
        List.mem_map] at hr
      obtain ⟨x, hx, rfl⟩ := hr
      obtain ⟨hxa, hxb⟩ := DisjointRangeSet.mem_kept.1 hx
      obtain ⟨d0, hd0, hx0⟩ := (hunion x).1 hxa
      refine ⟨_, List.mem_map.2 ⟨d0, hd0, rfl⟩, ?_⟩
      show shiftRange (toRangeDelta c.range c.text) x ∈
        ((DisjointRangeSet.removeOverlapping d0.ranges c.range ⟨true, true⟩).2).map
          (shiftRange (toRangeDelta c.range c.text))
      exact List.mem_map.2 ⟨x, DisjointRangeSet.mem_kept.2 ⟨hx0, hxb⟩, rfl⟩
    · rintro ⟨d', hd', hrd⟩
      rw [List.mem_map] at hd'
      obtain ⟨d0, hd0, rfl⟩ := hd'
      have hrd' : r ∈ ((DisjointRangeSet.removeOverlapping d0.ranges c.range
          ⟨true, true⟩).2).map (shiftRange (toRangeDelta c.range c.text)) := hrd
      rw [List.mem_map] at hrd'
      obtain ⟨x, hx, rfl⟩ := hrd'
      obtain ⟨hx0, hxb⟩ := DisjointRangeSet.mem_kept.1 hx
      refine List.mem_map.2 ⟨x, DisjointRangeSet.mem_kept.2
        ⟨(hunion x).2 ⟨d0, hd0, hx0⟩, hxb⟩, rfl⟩
  · show SafeFor _ (validateRange (applyEdit s.document c.range c.text)
      (rangeDeltaNewRange (toRangeDelta c.range c.text)))
    rw [editRange_valid hv]
    exact hsafe'
  · show Pos.BeforeOrEqual (validateRange (applyEdit s.document c.range c.text)
        (rangeDeltaNewRange (toRangeDelta c.range c.text))).start
      (validateRange (applyEdit s.document c.range c.text)
        (rangeDeltaNewRange (toRangeDelta c.range c.text))).stop
    rw [editRange_valid hv]
    exact newRange_wf c

theorem parsePretty_frame (s : DocState) (r : Range) :
    (parsePretty s r).1.uglyAll = s.uglyAll ∧
    (parsePretty s r).1.prettyDecorations.length = s.prettyDecorations.length ∧
    (parsePretty s r).1.document = s.document := by
  by_cases hd : s.prettyDecorations = []
  · unfold parsePretty
    rw [if_pos (by simp [hd])]
    exact ⟨rfl, rfl, rfl⟩
  · have h1 : (parsePretty s r).1.uglyAll = s.uglyAll := by
      unfold parsePretty
      rw [if_neg (by simpa [List.length_eq_zero] using hd)]
    have h3 : (parsePretty s r).1.document = s.document := by
      unfold parsePretty
      rw [if_neg (by simpa [List.length_eq_zero] using hd)]
    refine ⟨h1, ?_, h3⟩
    rw [(parsePretty_state s r hd).2, mergeFresh_length]
    split <;> simp

theorem reachable_frame (P : RegexProvider) (substs : List Substitution) (doc₀ : Doc)
    {s : DocState} (h : Reachable P substs doc₀ s) :
    s.uglyAll = (loadDecorations P substs).2.1 ∧
    s.prettyDecorations.length = (loadDecorations P substs).1.length := by
  induction h with
  | init =>
    have hf := parsePretty_frame
      { document := doc₀, prettyDecorations := (loadDecorations P substs).1,
        uglyAll := (loadDecorations P substs).2.1,
        uglyDecorationRanges := [], changedUglies := false } (docRange doc₀)
    exact ⟨hf.1, hf.2.1⟩
  | step s c _ _ ih =>
    have hf := parsePretty_frame
      { document := applyEdit s.document c.range c.text,
        prettyDecorations := s.prettyDecorations.map (fun d =>
          let k := (DisjointRangeSet.removeOverlapping d.ranges c.range ⟨true, true⟩).2
          { d with ranges := DisjointRangeSet.shiftRangeDelta k (toRangeDelta c.range c.text) }),
        uglyAll := s.uglyAll,
        uglyDecorationRanges := DisjointRangeSet.shiftRangeDelta
          (DisjointRangeSet.removeOverlapping s.uglyDecorationRanges c.range ⟨true, true⟩).2
          (toRangeDelta c.range c.text),
        changedUglies := s.changedUglies
          || decide ((DisjointRangeSet.removeOverlapping s.uglyDecorationRanges c.range
              ⟨true, true⟩).1.length > 0) }
      (rangeDeltaNewRange (toRangeDelta c.range c.text))
    exact ⟨hf.1.trans ih.1, hf.2.1.trans ((List.length_map _ _).trans ih.2)⟩
  | refresh s _ ih =>
    have hf := parsePretty_frame
      { document := s.document,
        prettyDecorations := s.prettyDecorations.map
          (fun d => { d with ranges := ([] : DisjointRangeSet) }),
        uglyAll := s.uglyAll,
        uglyDecorationRanges := [],
        changedUglies := s.changedUglies }
      (docRange s.document)
    exact ⟨hf.1.trans ih.1, hf.2.1.trans ((List.length_map _ _).trans ih.2)⟩

theorem reachable_strongInv (P : RegexProvider) (substs : List Substitution) (doc₀ : Doc)
    {s : DocState} (h : Reachable P substs doc₀ s)
    (hG : GoodEngine (loadDecorations P substs).2.1 (loadDecorations P substs).1.length) :
    StrongInv s := by
  induction h with
  | init => exact initState_strongInv P substs doc₀ hG
  | step s' c hre hvc ih =>
    refine processChange_preserves s' c ?_ ih hvc
    obtain ⟨h1, h2⟩ := reachable_frame P substs doc₀ hre
    rw [h1, h2]
    exact hG
  | refresh s' hre ih =>
    refine refreshState_strongInv s' ?_
    obtain ⟨h1, h2⟩ := reachable_frame P substs doc₀ hre
    rw [h1, h2]
    exact hG

/-- A concrete engine property check for the C1/C2 scenario: `execAbc`
behaves as a real regex engine with one capture group. -/
theorem goodEngine_execAbc : GoodEngine execAbc 1 := by
  refine ⟨?_, ?_, ?_⟩
  · intro t i m hm
    have hm' : (firstIdxFrom t i (fun j => matchesAt t j ['a', 'b', 'c'])).map
        (fun j => ({ index := j, arr := [some ['a', 'b', 'c'], some ['a']] } : MatchData))
        = some m := hm
    obtain ⟨j, hj, rfl⟩ := Option.map_eq_some'.1 hm'
    have hmem := List.mem_of_find?_eq_some hj
    rw [List.mem_range'_1] at hmem
    exact hmem.1
  · intro t i m hm
    have hm' : (firstIdxFrom t i (fun j => matchesAt t j ['a', 'b', 'c'])).map
        (fun j => ({ index := j, arr := [some ['a', 'b', 'c'], some ['a']] } : MatchData))
        = some m := hm
    obtain ⟨j, hj, rfl⟩ := Option.map_eq_some'.1 hm'
    simp
  · intro t i m hm j str hj hstr
    have hm' : (firstIdxFrom t i (fun k => matchesAt t k ['a', 'b', 'c'])).map
        (fun k => ({ index := k, arr := [some ['a', 'b', 'c'], some ['a']] } : MatchData))
        = some m := hm
    obtain ⟨j0, hj0, rfl⟩ := Option.map_eq_some'.1 hm'
    rcases j with _ | _ | n
    · omega
    · have h1 : some ['a'] = some str := hstr
      cases h1
      simp
    · simp [List.getD] at hstr

/-- C2: at every reachable point in time (after the constructor's initial
scan, after each processed edit, and after refresh), the set of ranges held
in the aggregate index `uglyDecorationRanges` equals the union of the ranges
held in the per-rule indices `prettyDecorations[i].ranges`, and the aggregate
ranges are pairwise non-overlapping, provided the combined regex behaves as a
regex engine (matches start at or after the requested position, report at
most the declared number of groups, and participating groups are non-empty).
-/
theorem reachable_union_disjoint (P : RegexProvider) (substs : List Substitution)
    (doc₀ : Doc) (s : DocState) (h : Reachable P substs doc₀ s)
    (hG : GoodEngine (loadDecorations P substs).2.1 (loadDecorations P substs).1.length) :
    (∀ r, r ∈ s.uglyDecorationRanges ↔ ∃ d ∈ s.prettyDecorations, r ∈ d.ranges) ∧
    s.uglyDecorationRanges.Pairwise (fun a b => ¬ Range.Overlaps a b) := by
  obtain ⟨hu, hsep, _⟩ := reachable_strongInv P substs doc₀ h hG
  refine ⟨hu, hsep.imp_of_mem ?_⟩
  intro a b _ _ hab hov
  exact Pos.before_irrefl b.start (Pos.before_of_before_of_beforeOrEqual hov.2 hab)

/-- Witness for C2 at the concrete one-rule scenario after the initial scan.
-/
theorem reachable_union_disjoint_witness :
    Reachable providerAbc [substAbc] docAbc (initState providerAbc [substAbc] docAbc) ∧
    GoodEngine (loadDecorations providerAbc [substAbc]).2.1
      (loadDecorations providerAbc [substAbc]).1.length ∧
    ((∀ r, r ∈ (initState providerAbc [substAbc] docAbc).uglyDecorationRanges ↔
        ∃ d ∈ (initState providerAbc [substAbc] docAbc).prettyDecorations, r ∈ d.ranges) ∧
      (initState providerAbc [substAbc] docAbc).uglyDecorationRanges.Pairwise
        (fun a b => ¬ Range.Overlaps a b)) :=
  ⟨Reachable.init, goodEngine_execAbc,
    reachable_union_disjoint providerAbc [substAbc] docAbc _
      Reachable.init goodEngine_execAbc⟩
